import Mathlib

/-!
# winlogUSBFDG: extraction of USB plug events from Windows event-log exports

A shallow embedding of `main.go`.

Conventions of the embedding.

* Go strings and byte slices are sequences of characters (`List Char`); on ASCII
  text a character index is a byte index.
* A Go `(value, error)` result is a pair whose second component is `none` for a
  nil error.
* A computation that can stop with a run-time fault (nil pointer dereference)
  returns an `Option`: `none` is the fault, `some r` is a normal return of `r`.
* The XML library (`etree`), `bufio.Scanner`, `strconv.ParseUint`, `regexp` and
  the iteration order of Go maps are not part of the repository.  The XML
  reader and the map iteration order are parameters; the other three are
  modelled from their documented behaviour, restricted to how `main.go` uses
  them.
* Text printed to standard output is not modelled.
-/

namespace WinlogUSB

/-! ## Errors -/

/-- Error values that `main.go` creates or receives.  `ErrNotFound` is the
package-level sentinel that the code compares against by identity. -/
inductive GoError where
  | ErrNotFound
  | noEventID
  | noProvider
  | noComputer
  | numSyntax
  | numRange
  | xml (msg : List Char)
  | os (msg : List Char)
  deriving DecidableEq, Repr

/-! ## The regular expression `re` -/

/-- Pieces of a regular expression, enough for the pattern of `main.go`:
a literal character, a one-character class, a greedy one-or-more repetition of
a class, and the two ends of capture group 1. -/
inductive Item where
  | lit (c : Char)
  | cls (p : Char → Bool)
  | plus (p : Char → Bool)
  | capStart
  | capEnd

/-- Greedy repetition with backtracking: consume as many characters of the
class as possible, and give characters back one at a time while the rest of the
pattern `k` fails. -/
def star {α : Type} (p : Char → Bool) (k : Nat → List Char → Option α) :
    Nat → List Char → Option α
  | i, [] => k i []
  | i, c :: s =>
    if p c then
      match star p k (i + 1) s with
      | some r => some r
      | none => k i (c :: s)
    else k i (c :: s)

/-- Backtracking matcher in continuation-passing style.  `caps` holds the two
offsets of capture group 1, `i` is the offset of the remaining input `s`. -/
def matchItems {α : Type} : List Item → (Nat × Nat → Nat → List Char → Option α) →
    Nat × Nat → Nat → List Char → Option α
  | [], k => k
  | Item.lit c :: is, k => fun caps i s =>
    match s with
    | x :: s' => if x = c then matchItems is k caps (i + 1) s' else none
    | [] => none
  | Item.cls p :: is, k => fun caps i s =>
    match s with
    | x :: s' => if p x then matchItems is k caps (i + 1) s' else none
    | [] => none
  | Item.plus p :: is, k => fun caps i s =>
    match s with
    | x :: s' => if p x then star p (matchItems is k caps) (i + 1) s' else none
    | [] => none
  | Item.capStart :: is, k => fun caps i s => matchItems is k (i, caps.2) i s
  | Item.capEnd :: is, k => fun caps i s => matchItems is k (caps.1, i) i s

/-- The preferred match of the pattern starting exactly at offset `i`, as the
four offsets `[start, end, group1 start, group1 end]`. -/
def matchAt (r : List Item) (i : Nat) (s : List Char) : Option (List Nat) :=
  matchItems r (fun caps j _ => some [i, j, caps.1, caps.2]) (0, 0) i s

/-- Leftmost match: try every start offset from left to right. -/
def findFrom (r : List Item) : Nat → List Char → Option (List Nat)
  | i, [] => matchAt r i []
  | i, c :: s =>
    match matchAt r i (c :: s) with
    | some loc => some loc
    | none => findFrom r (i + 1) s

/-- The regexp method `FindStringSubmatchIndex`: `none` is the nil slice. -/
def FindStringSubmatchIndex (r : List Item) (t : List Char) : Option (List Nat) :=
  findFrom r 0 t

/-- The class `[0-9A-F]`. -/
def isHexUpper (c : Char) : Bool := ('0' ≤ c && c ≤ '9') || ('A' ≤ c && c ≤ 'F')

/-- The class `[0-9]`. -/
def isDigit (c : Char) : Bool := '0' ≤ c && c ≤ '9'

/-- The class `\s` of Go regular expressions: tab, newline, form feed, carriage
return and space. -/
def isPerlSpace (c : Char) : Bool :=
  c = '\t' || c = '\n' || c = '\x0c' || c = '\r' || c = ' '

/-- The class `\S`. -/
def notPerlSpace (c : Char) : Bool := !isPerlSpace c

/-- The class `.` (any character but newline). -/
def notNewline (c : Char) : Bool := c != '\n'

/-- A run of literal characters. -/
def lits (s : List Char) : List Item := s.map Item.lit

/-- The literal text `USB\VID_`. -/
def usbVid : List Char := ['U', 'S', 'B', '\\', 'V', 'I', 'D', '_']

/-- The literal text `&PID_`. -/
def andPid : List Char := ['&', 'P', 'I', 'D', '_']

/-- The pattern `USB\\VID_[0-9A-F]+&PID_[0-9]+\\(\S.+)` of `main.go`. -/
def re : List Item :=
  lits usbVid ++ (Item.plus isHexUpper :: (lits andPid ++
    [Item.plus isDigit, Item.lit '\\', Item.capStart, Item.cls notPerlSpace,
     Item.plus notNewline, Item.capEnd]))

/-- Go slice expression `t[lo:hi]`. -/
def slice (t : List Char) (lo hi : Nat) : List Char := (t.drop lo).take (hi - lo)

/-- Function `getUSBSerialNumber` of `main.go`. -/
def getUSBSerialNumber (t : List Char) : List Char × Bool :=
  match FindStringSubmatchIndex re t with
  | none => ([], false)
  | some loc =>
    if loc.length ≠ 4 then ([], false)
    else (slice t (loc.getD 2 0) (loc.getD 3 0), true)

/-! ## `strconv.ParseUint` -/

/-- Digit value of a character as `ParseUint` computes it: decimal digits, then
letters of either case from 10 on; `none` for any other character. -/
def digitVal (c : Char) : Option Nat :=
  if '0' ≤ c ∧ c ≤ '9' then some (c.toNat - 48)
  else if 97 ≤ (c.toNat ||| 32) ∧ (c.toNat ||| 32) ≤ 122 then some ((c.toNat ||| 32) - 97 + 10)
  else none

/-- The digit loop of `ParseUint` on 64-bit unsigned arithmetic. -/
def parseLoop (base cutoff maxVal : Nat) : List Char → Nat → Except GoError Nat
  | [], n => Except.ok n
  | c :: cs, n =>
    match digitVal c with
    | none => Except.error GoError.numSyntax
    | some d =>
      if base ≤ d then Except.error GoError.numSyntax
      else if cutoff ≤ n then Except.error GoError.numRange
      else
        let m := (n * base) % 2 ^ 64
        let n1 := (m + d) % 2 ^ 64
        if n1 < m ∨ maxVal < n1 then Except.error GoError.numRange
        else parseLoop base cutoff maxVal cs n1

/-- Function `strconv.ParseUint(s, base, bitSize)` for an explicit base in
`2..36` and a bit size in `1..64`. -/
def ParseUint (s : List Char) (base bitSize : Nat) : Except GoError Nat :=
  if s = [] then Except.error GoError.numSyntax
  else parseLoop base ((2 ^ 64 - 1) / base + 1) (2 ^ bitSize - 1) s 0

/-! ## Parsed documents -/

/-- An XML attribute. -/
structure Attr where
  Key : List Char
  Value : List Char
  deriving DecidableEq, Repr

/-- What `processEvent` reads of an element: its attributes and its text. -/
structure Element where
  attrs : List Attr
  text : List Char
  deriving DecidableEq, Repr

/-- Method `SelectAttr`: the first attribute with the key; `none` is nil. -/
def Element.SelectAttr (e : Element) (key : List Char) : Option Attr :=
  e.attrs.find? (fun a => a.Key = key)

/-- Method `Text`. -/
def Element.Text (e : Element) : List Char := e.text

/-- What `processEvent` reads of a parsed document: the results of its four path
queries. -/
structure Document where
  /-- Result of `FindElement` for `.//EventID`. -/
  EventID : Option Element
  /-- Result of `FindElement` for `.//System//Provider`. -/
  Provider : Option Element
  /-- Result of `FindElement` for `.//System//Computer`. -/
  Computer : Option Element
  /-- Result of `FindElements` for `.//EventData//Data`, in the order returned. -/
  Data : List Element
  deriving DecidableEq, Repr

/-- The XML reader `ReadFromString`, a parameter of the model. -/
abbrev Reader := List Char → Except GoError Document

/-! ## `processEvent` -/

/-- Type `usbplugevent` of `main.go`. -/
structure usbplugevent where
  computer : List Char
  serial : List Char
  deriving DecidableEq, Repr

/-- Type `plugSets` of `main.go`. -/
abbrev plugSets := List usbplugevent

/-- The zero value of `usbplugevent`. -/
def usbplugevent.zero : usbplugevent := ⟨[], []⟩

/-- The attribute key `Name`. -/
def keyName : List Char := "Name".toList

/-- The attribute value `DeviceId`. -/
def valDeviceId : List Char := "DeviceId".toList

/-- The provider name that `processEvent` requires. -/
def providerName : List Char := "Microsoft-Windows-Security-Auditing".toList

/-- The loop of `processEvent` over the `Data` elements. -/
def scanData (computer : List Char) : List Element → usbplugevent × Option GoError
  | [] => (usbplugevent.zero, some GoError.ErrNotFound)
  | e :: es =>
    match e.SelectAttr keyName with
    | none => scanData computer es
    | some attr =>
      if attr.Value ≠ valDeviceId then scanData computer es
      else
        match getUSBSerialNumber e.Text with
        | (serial, true) => (⟨computer, serial⟩, none)
        | (_, false) => scanData computer es

/-- Function `processEvent` of `main.go`.  The result `none` is the nil pointer
dereference of `e.SelectAttr(Name).Value` on a missing attribute. -/
def processEvent (ReadFromString : Reader) (t : List Char) :
    Option (usbplugevent × Option GoError) :=
  match ReadFromString t with
  | Except.error err => some (usbplugevent.zero, some err)
  | Except.ok doc =>
    match doc.EventID with
    | none => some (usbplugevent.zero, some GoError.noEventID)
    | some e =>
      match ParseUint e.Text 10 16 with
      | Except.error err => some (usbplugevent.zero, some err)
      | Except.ok id =>
        if id ≠ 6416 then some (usbplugevent.zero, some GoError.ErrNotFound)
        else
          match doc.Provider with
          | none => some (usbplugevent.zero, some GoError.noProvider)
          | some pe =>
            match pe.SelectAttr keyName with
            | none => none
            | some a =>
              if a.Value ≠ providerName then
                some (usbplugevent.zero, some GoError.ErrNotFound)
              else
                match doc.Computer with
                | none => some (usbplugevent.zero, some GoError.noComputer)
                | some ce => some (scanData ce.Text doc.Data)

/-! ## Trimming -/

/-- Function `unicode.IsSpace`. -/
def isSpace (c : Char) : Bool :=
  c = '\t' || c = '\n' || c = '\x0b' || c = '\x0c' || c = '\r' || c = ' ' ||
  c.toNat = 0x85 || c.toNat = 0xA0 || c.toNat = 0x1680 ||
  (0x2000 ≤ c.toNat && c.toNat ≤ 0x200a) || c.toNat = 0x2028 || c.toNat = 0x2029 ||
  c.toNat = 0x202f || c.toNat = 0x205f || c.toNat = 0x3000

/-- Function `strings.TrimFunc`: drop the leading, then the trailing characters
that satisfy `f`. -/
def TrimFunc (f : Char → Bool) (s : List Char) : List Char :=
  (s.dropWhile f).rdropWhile f

/-- Function `strings.TrimSpace`. -/
def TrimSpace (s : List Char) : List Char := TrimFunc isSpace s

/-- Function `strings.Trim`. -/
def Trim (s cutset : List Char) : List Char := TrimFunc (fun c => decide (c ∈ cutset)) s

/-! ## The record splitter -/

/-- The closing tag that delimits records. -/
def delim : List Char := "</Event>".toList

/-- Function `strings.Index`; `none` is the result -1. -/
def Index : List Char → List Char → Option Nat
  | [], sub => if sub.isPrefixOf [] then some 0 else none
  | c :: s, sub =>
    if sub.isPrefixOf (c :: s) then some 0 else (Index s sub).map (· + 1)

/-- The split function `sp` of `extractPlugEvents`: the pair `(advance, token)`,
where `none` is the nil token; its error result is always nil. -/
def sp (data : List Char) (atEOF : Bool) : Nat × Option (List Char) :=
  let n := Index data delim
  if n = none ∧ atEOF = true then
    (if data.length = 0 then 1 else data.length, some data)
  else
    match n with
    | some n => (n + 8, some (data.take (n + 8)))
    | none => (0, none)

/-- The buffer size given to `sc.Buffer`, also the maximum token size. -/
def maxTokenSize : Nat := 1024 * 1024 * 32

/-- One call of `sc.Scan()` with split function `sp` on a finite input of which
`rest` is not yet consumed.  The buffer holds at most `maxTok` pending
characters.  The result is the token and the input left, or `none` when `Scan`
returns false: on a full buffer without a token, and on an advance beyond the
data (how `sp` ends the scan on empty data at end of input). -/
def Scan (maxTok : Nat) (rest : List Char) : Option (List Char × List Char) :=
  let buf := rest.take maxTok
  match sp buf false with
  | (advance, some token) =>
    if advance ≤ buf.length then some (token, rest.drop advance) else none
  | (_, none) =>
    if maxTok ≤ buf.length then none
    else
      match sp buf true with
      | (advance, some token) =>
        if advance ≤ buf.length then some (token, rest.drop advance) else none
      | (_, none) => none

/-- The tokens of successive `Scan` calls, at most `fuel` of them. -/
def scanTokens (maxTok : Nat) : Nat → List Char → List (List Char)
  | 0, _ => []
  | fuel + 1, rest =>
    match Scan maxTok rest with
    | none => []
    | some (token, rest') => token :: scanTokens maxTok fuel rest'

/-- All tokens of an input: every token consumes a character, so one more call
than the input has characters is enough. -/
def allTokens (maxTok : Nat) (input : List Char) : List (List Char) :=
  scanTokens maxTok (input.length + 1) input

/-! ## `extractPlugEvents` -/

/-- The string handed to `processEvent` for a token. -/
def trimToken (token : List Char) : List Char := Trim (TrimSpace token) ['\x00']

/-- The body of the scan loop of `extractPlugEvents`, run over the tokens with
the slice `set` built so far.  A token that is empty after trimming and a token
with `ErrNotFound` leave `set` unchanged (`continue`); after any other error
the code prints a message and goes on to the `append`. -/
def scanLoop (R : Reader) : List (List Char) → List usbplugevent → Option (List usbplugevent)
  | [], set => some set
  | token :: tokens, set =>
    let t := trimToken token
    if t.length = 0 then scanLoop R tokens set
    else
      match processEvent R t with
      | none => none
      | some (upe, err) =>
        if err ≠ none then
          if err = some GoError.ErrNotFound then scanLoop R tokens set
          else scanLoop R tokens (set ++ [upe])
        else scanLoop R tokens (set ++ [upe])

/-- Function `extractPlugEvents` of `main.go`; `fin` is the result of `os.Open`,
the content of the file when it could be opened. -/
def extractPlugEvents (R : Reader) (fin : Except GoError (List Char)) :
    Option (List usbplugevent × Option GoError) :=
  match fin with
  | Except.error err => some ([], some err)
  | Except.ok content =>
    match scanLoop R (allTokens maxTokenSize content) [] with
    | none => none
    | some set =>
      if set.length = 0 then some (set, some GoError.ErrNotFound) else some (set, none)

/-! ## The graph -/

/-- The order in which a `range` over a map visits its keys; Go leaves it
unspecified, so it is a parameter.  The argument lists the keys in insertion
order. -/
abbrev MapRange := List (List Char) → List (List Char)

/-- A map iteration visits every key exactly once. -/
def MapRange.Valid (ord : MapRange) : Prop := ∀ keys, (ord keys).Perm keys

/-- Assignment `v[k] = true` on the key set of a map. -/
def mapInsert (keys : List (List Char)) (k : List Char) : List (List Char) :=
  if k ∈ keys then keys else keys ++ [k]

/-- Function `uniqueUSBs` of `main.go`. -/
def uniqueUSBs (ord : MapRange) (set : plugSets) : List (List Char) :=
  ord (set.foldl (fun v e => mapInsert v e.serial) [])

/-- The first loop of `createGraph`: `uniques` after the sets from index `i` on
have been visited; the call for the set of index `j` iterates its map in the
order `ords j`. -/
def gatherUniques (ords : Nat → MapRange) : Nat → List plugSets → List (List Char) →
    List (List Char)
  | _, [], uniques => uniques
  | i, set :: sets, uniques =>
    gatherUniques ords (i + 1) sets (uniques ++ uniqueUSBs (ords i) set)

/-- The node declaration line of a serial. -/
def nodeLine (u : List Char) : List Char :=
  "\t\"".toList ++ u ++ "\" [color=Red, fontcolor=Red, shape=box]\n".toList

/-- The edge line of an association. -/
def edgeLine (s : usbplugevent) : List Char :=
  "\t\"".toList ++ s.serial ++ "\" -> \"".toList ++ s.computer ++ "\";\n".toList

/-- The slice `uniques` of `createGraph`, the serials it declares as nodes. -/
def graphNodes (ords : Nat → MapRange) (sets : List plugSets) : List (List Char) :=
  gatherUniques ords 0 sets []

/-- The text that `createGraph` writes to the file, one `Fprintf` after the
other. -/
def graphText (ords : Nat → MapRange) (sets : List plugSets) : List Char :=
  let out := "digraph USBPlugs\x7b\n".toList
  let out := (graphNodes ords sets).foldl (fun out u => out ++ nodeLine u) out
  let out := out ++ "\n".toList
  let out := sets.foldl (fun out set => set.foldl (fun out s => out ++ edgeLine s) out) out
  out ++ "\x7d".toList

/-- Function `createGraph` of `main.go`: the error of `os.Create`, or the text
written to the created file. -/
def createGraph (ords : Nat → MapRange) (sets : List plugSets) (created : Option GoError) :
    Except GoError (List Char) :=
  match created with
  | some err => Except.error err
  | none => Except.ok (graphText ords sets)

/-! ## Notions used to state the properties, and sample data -/

/-- The part of `re` after the vendor digits. -/
def reTail1 : List Item :=
  lits andPid ++ [Item.plus isDigit, Item.lit '\\', Item.capStart, Item.cls notPerlSpace,
    Item.plus notNewline, Item.capEnd]

/-- The part of `re` after the product digits. -/
def reTail2 : List Item :=
  [Item.lit '\\', Item.capStart, Item.cls notPerlSpace, Item.plus notNewline, Item.capEnd]

/-- A text contains a USB path: some leading text, `USB\VID_`, one or more
digits of `[0-9A-F]`, `&PID_`, one or more decimal digits, a backslash and a
character outside the class `\s`. -/
def HasUsbPath (t : List Char) : Prop :=
  ∃ pre H D c rest, t = pre ++ (usbVid ++ (H ++ (andPid ++ (D ++ '\\' :: c :: rest)))) ∧
    H ≠ [] ∧ (∀ x ∈ H, isHexUpper x = true) ∧ D ≠ [] ∧ (∀ x ∈ D, isDigit x = true) ∧
    isPerlSpace c = false

/-- A text begins with a USB path: the same shape with no leading text. -/
def BeginsWithUsbPath (t : List Char) : Prop :=
  ∃ H D c rest, t = usbVid ++ (H ++ (andPid ++ (D ++ '\\' :: c :: rest))) ∧
    H ≠ [] ∧ (∀ x ∈ H, isHexUpper x = true) ∧ D ≠ [] ∧ (∀ x ∈ D, isDigit x = true) ∧
    isPerlSpace c = false

/-- A plain decimal numeral: one or more characters, all of them in `0..9`. -/
def IsDecimal (s : List Char) : Prop := s ≠ [] ∧ ∀ c ∈ s, isDigit c = true

/-- The value of a decimal numeral, read from the left from the value `n`. -/
def decimalFrom (n : Nat) (s : List Char) : Nat :=
  s.foldl (fun n c => n * 10 + (c.toNat - 48)) n

/-- The value of a decimal numeral. -/
def decimalValue (s : List Char) : Nat := decimalFrom 0 s

/-- A `Data` element whose `Name` attribute is `DeviceId`. -/
def isDeviceIdField (e : Element) : Bool :=
  match e.SelectAttr keyName with
  | some attr => decide (attr.Value = valDeviceId)
  | none => false

/-- A `DeviceId` field on whose text `getUSBSerialNumber` succeeds. -/
def yieldsSerial (e : Element) : Bool :=
  isDeviceIdField e && (getUSBSerialNumber e.Text).2

/-- The device identifier of the specification's example. -/
def sampleDeviceId : List Char := "USB\\VID_1234&PID_5678\\ABC123SERIAL".toList

/-- A provider element with the required name. -/
def sampleProvider : Element := ⟨[⟨keyName, providerName⟩], []⟩

/-- A record of event 6416 from host `PC1` with a `ClassName` field, a `DeviceId`
field that is not a USB path and a `DeviceId` field that is one. -/
def sampleDoc : Document :=
  { EventID := some ⟨[], "6416".toList⟩
    Provider := some sampleProvider
    Computer := some ⟨[], "PC1".toList⟩
    Data := [⟨[⟨"Name".toList, "ClassName".toList⟩], "USB".toList⟩,
             ⟨[⟨"Name".toList, "DeviceId".toList⟩], "PCI\\VEN_1234".toList⟩,
             ⟨[⟨"Name".toList, "DeviceId".toList⟩], sampleDeviceId⟩,
             ⟨[⟨"Name".toList, "DeviceId".toList⟩], "USB\\VID_1&PID_2\\ZZ".toList⟩] }

/-- A record of event 6416 from host `PC1` whose only `DeviceId` field holds the
example device identifier. -/
def singleDeviceDoc : Document :=
  { EventID := some ⟨[], "6416".toList⟩
    Provider := some sampleProvider
    Computer := some ⟨[], "PC1".toList⟩
    Data := [⟨[⟨"Name".toList, "ClassName".toList⟩], "USB".toList⟩,
             ⟨[⟨"Name".toList, "DeviceId".toList⟩], sampleDeviceId⟩] }

/-- The text of a record of event 6416 that has no Computer element. -/
def malformedRecord : List Char :=
  ("<Event><System><Provider Name=\"Microsoft-Windows-Security-Auditing\"/>" ++
   "<EventID>6416</EventID></System></Event>").toList

/-- The parsed form of `malformedRecord`. -/
def malformedDoc : Document :=
  { EventID := some ⟨[], "6416".toList⟩
    Provider := some sampleProvider
    Computer := none
    Data := [] }

/-- A reader that knows the record `malformedRecord`. -/
def malformedReader : Reader := fun t =>
  if t = malformedRecord then Except.ok malformedDoc else Except.error (GoError.xml [])

/-- The serials of a set, in record order. -/
def serialsOf (set : plugSets) : List (List Char) := set.map usbplugevent.serial

/-- The distinct elements of a list, each at the place of its first
occurrence. -/
def firstOccurrences (l : List (List Char)) : List (List Char) :=
  l.foldl (fun acc s => if s ∈ acc then acc else acc ++ [s]) []

/-- The key set of the map that `uniqueUSBs` fills, in insertion order. -/
def keysOf (set : plugSets) : List (List Char) :=
  set.foldl (fun v e => mapInsert v e.serial) []

/-- The results of the calls of `uniqueUSBs` in the first loop of `createGraph`,
one group of serials per set. -/
def nodeGroups (ords : Nat → MapRange) : Nat → List plugSets → List (List (List Char))
  | _, [] => []
  | i, set :: sets => uniqueUSBs (ords i) set :: nodeGroups ords (i + 1) sets

/-- The two source sets of the specification's example:
`(H1,S1), (H2,S1)` and `(H3,S2)`. -/
def sampleSets : List plugSets :=
  [[⟨"H1".toList, "S1".toList⟩, ⟨"H2".toList, "S1".toList⟩], [⟨"H3".toList, "S2".toList⟩]]

/-- The text `sub` occurs in `s` at index `n`. -/
def OccursAt (sub s : List Char) (n : Nat) : Prop :=
  ∃ a b, s = a ++ (sub ++ b) ∧ a.length = n

/-- The first occurrence of `sub` in `s` is at index `n`. -/
def FirstOccurrence (sub s : List Char) (n : Nat) : Prop :=
  OccursAt sub s n ∧ ∀ m, OccursAt sub s m → n ≤ m

/-- The tokens of successive `Scan` calls when the scan ends within `fuel` calls;
`none` when it does not. -/
def scanRun (maxTok : Nat) : Nat → List Char → Option (List (List Char))
  | 0, _ => none
  | fuel + 1, rest =>
    match Scan maxTok rest with
    | none => some []
    | some (token, rest') => (scanRun maxTok fuel rest').map (fun tokens => token :: tokens)

/-- The strings on which the scan loop of `extractPlugEvents` calls
`processEvent` for given tokens: every token trimmed, those that are empty
after trimming left out. -/
def handedOf (tokens : List (List Char)) : List (List Char) :=
  (tokens.map trimToken).filter (fun t => decide (t.length ≠ 0))

/-- The strings handed to `processEvent` for an input. -/
def handedStrings (input : List Char) : List (List Char) :=
  handedOf (allTokens maxTokenSize input)

/-- The calls of `processEvent` of the scan loop on given strings, with the
treatment of their results. -/
def processAll (R : Reader) : List (List Char) → List usbplugevent → Option (List usbplugevent)
  | [], set => some set
  | t :: ts, set =>
    match processEvent R t with
    | none => none
    | some (upe, err) =>
      if err ≠ none then
        if err = some GoError.ErrNotFound then processAll R ts set
        else processAll R ts (set ++ [upe])
      else processAll R ts (set ++ [upe])

/-- A record of event 4624 without Provider and Computer elements. -/
def otherEventDoc : Document :=
  { EventID := some ⟨[], "4624".toList⟩, Provider := none, Computer := none, Data := [] }

/-- A record of event 6416 from another provider, without Computer element. -/
def otherProviderDoc : Document :=
  { EventID := some ⟨[], "6416".toList⟩
    Provider := some ⟨[⟨keyName, "Microsoft-Windows-Kernel-PnP".toList⟩], []⟩
    Computer := none
    Data := [] }

/-- The text of a record of event 6416 whose Provider element has no `Name`
attribute. -/
def namelessProviderRecord : List Char :=
  ("<Event><System><Provider Guid=\"x\"/><EventID>6416</EventID>" ++
   "<Computer>PC1</Computer></System></Event>").toList

/-- The parsed form of `namelessProviderRecord`. -/
def namelessProviderDoc : Document :=
  { EventID := some ⟨[], "6416".toList⟩
    Provider := some ⟨[⟨"Guid".toList, "x".toList⟩], []⟩
    Computer := some ⟨[], "PC1".toList⟩
    Data := [] }

/-- A reader that knows the record `namelessProviderRecord`. -/
def namelessProviderReader : Reader := fun t =>
  if t = namelessProviderRecord then Except.ok namelessProviderDoc
  else Except.error (GoError.xml [])

/-- A set with two distinct serials. -/
def twoSerialSets : List plugSets :=
  [[⟨"H1".toList, "S1".toList⟩, ⟨"H1".toList, "S2".toList⟩]]

/-! # Theorems -/

set_option maxRecDepth 100000

/-! ## Lemmas on the matcher -/

theorem star_eq_of_reject {α : Type} (p : Char → Bool) (k : Nat → List Char → Option α)
    (hk : ∀ j c s, p c = true → k j (c :: s) = none) (i : Nat) (s : List Char) :
    star p k i s = k (i + (s.takeWhile p).length) (s.dropWhile p) := by
  induction s generalizing i with
  | nil => simp [star]
  | cons c s ih =>
    by_cases hc : p c = true
    · simp only [star, hc, if_true, List.takeWhile_cons_of_pos, List.dropWhile_cons_of_pos,
        List.length_cons]
      rw [ih (i + 1), hk i c s hc]
      have e : i + 1 + (List.takeWhile p s).length = i + ((List.takeWhile p s).length + 1) := by
        omega
      rw [e]
      cases k (i + ((List.takeWhile p s).length + 1)) (List.dropWhile p s) <;> rfl
    · simp [star, hc]

theorem star_eq_of_accept {α : Type} (p : Char → Bool) (k : Nat → List Char → Option α)
    (hk : ∀ j s, (k j s).isSome = true) (i : Nat) (s : List Char) :
    star p k i s = k (i + (s.takeWhile p).length) (s.dropWhile p) := by
  induction s generalizing i with
  | nil => simp [star]
  | cons c s ih =>
    by_cases hc : p c = true
    · simp only [star, hc, if_true, List.takeWhile_cons_of_pos, List.dropWhile_cons_of_pos,
        List.length_cons]
      rw [ih (i + 1)]
      have e : i + 1 + (List.takeWhile p s).length = i + ((List.takeWhile p s).length + 1) := by
        omega
      rw [e]
      have h := hk (i + ((List.takeWhile p s).length + 1)) (List.dropWhile p s)
      cases hr : k (i + ((List.takeWhile p s).length + 1)) (List.dropWhile p s) with
      | none => rw [hr] at h; simp at h
      | some r => rfl
    · simp [star, hc]

theorem matchItems_lits {α : Type} (l : List Char) (is : List Item)
    (k : Nat × Nat → Nat → List Char → Option α) (caps : Nat × Nat) (i : Nat) (s : List Char) :
    matchItems (l.map Item.lit ++ is) k caps i (l ++ s) = matchItems is k caps (i + l.length) s := by
  induction l generalizing i with
  | nil => simp
  | cons c l ih =>
    simp only [List.map_cons, List.cons_append, matchItems, if_true, List.length_cons]
    have e : i + (l.length + 1) = i + 1 + l.length := by omega
    rw [e]
    exact ih (i + 1)

theorem matchItems_lits_some {α : Type} (l : List Char) (is : List Item)
    (k : Nat × Nat → Nat → List Char → Option α) (caps : Nat × Nat) (i : Nat) (s : List Char)
    (r : α) (h : matchItems (l.map Item.lit ++ is) k caps i s = some r) :
    ∃ s', s = l ++ s' ∧ matchItems is k caps (i + l.length) s' = some r := by
  induction l generalizing i s with
  | nil => exact ⟨s, rfl, by simpa using h⟩
  | cons c l ih =>
    cases s with
    | nil => simp [matchItems] at h
    | cons x s =>
      simp only [List.map_cons, List.cons_append, matchItems] at h
      by_cases hx : x = c
      · simp only [hx, if_true] at h
        obtain ⟨s', hs, hm⟩ := ih (i + 1) s h
        refine ⟨s', by simp [hx, hs], ?_⟩
        have e : i + (c :: l).length = i + 1 + l.length := by simp; omega
        rw [e]; exact hm
      · simp [hx] at h

theorem matchItems_plus_some {α : Type} (p : Char → Bool) (is : List Item)
    (k : Nat × Nat → Nat → List Char → Option α) (caps : Nat × Nat) (i : Nat) (s : List Char)
    (r : α) (h : matchItems (Item.plus p :: is) k caps i s = some r) :
    ∃ x s', s = x :: s' ∧ p x = true ∧ star p (matchItems is k caps) (i + 1) s' = some r := by
  cases s with
  | nil => simp [matchItems] at h
  | cons x s =>
    simp only [matchItems] at h
    by_cases hx : p x = true
    · exact ⟨x, s, rfl, hx, by simpa [hx] using h⟩
    · simp [hx] at h

/-! ## The pattern `re` at a fixed start offset -/

theorem reTail1_reject {α : Type} (k : Nat × Nat → Nat → List Char → Option α) (caps : Nat × Nat)
    (j : Nat) (c : Char) (s : List Char) (hc : isHexUpper c = true) :
    matchItems reTail1 k caps j (c :: s) = none := by
  have hne : c ≠ '&' := by
    intro h
    rw [h] at hc
    exact absurd hc (by decide)
  simp [reTail1, lits, andPid, matchItems, hne]

theorem reTail2_reject {α : Type} (k : Nat × Nat → Nat → List Char → Option α) (caps : Nat × Nat)
    (j : Nat) (c : Char) (s : List Char) (hc : isDigit c = true) :
    matchItems reTail2 k caps j (c :: s) = none := by
  have hne : c ≠ '\\' := by
    intro h
    rw [h] at hc
    exact absurd hc (by decide)
  simp [reTail2, matchItems, hne]

/-- The match of `reTail2` on any input, in closed form. -/
theorem reTail2_eq (i0 : Nat) (caps : Nat × Nat) (j : Nat) (s : List Char) :
    matchItems reTail2 (fun caps j _ => some [i0, j, caps.1, caps.2]) caps j s =
      match s with
      | b :: c :: d :: rest =>
        if b = '\\' ∧ notPerlSpace c = true ∧ notNewline d = true then
          some [i0, j + 3 + (rest.takeWhile notNewline).length, j + 1,
                j + 3 + (rest.takeWhile notNewline).length]
        else none
      | _ => none := by
  match s with
  | [] => simp [reTail2, matchItems]
  | [b] =>
    by_cases hb : b = '\\' <;> simp [reTail2, matchItems, hb]
  | [b, c] =>
    by_cases hb : b = '\\' <;> by_cases hc : notPerlSpace c = true <;>
      simp [reTail2, matchItems, hb, hc]
  | b :: c :: d :: rest =>
    by_cases hb : b = '\\'
    · by_cases hc : notPerlSpace c = true
      · by_cases hd : notNewline d = true
        · simp only [reTail2, matchItems, hb, hc, hd, if_true, and_self]
          rw [star_eq_of_accept notNewline _ (by intro j s; simp [matchItems])]
        · simp [reTail2, matchItems, hb, hc, hd]
      · simp [reTail2, matchItems, hb, hc]
    · simp [reTail2, matchItems, hb]

theorem re_eq : re = lits usbVid ++ (Item.plus isHexUpper :: reTail1) := rfl

theorem reTail1_eq : reTail1 = lits andPid ++ (Item.plus isDigit :: reTail2) := rfl

theorem takeWhile_run (p : Char → Bool) (l : List Char) (x : Char) (s : List Char)
    (hl : ∀ a ∈ l, p a = true) (hx : p x = false) :
    (l ++ x :: s).takeWhile p = l := by
  rw [List.takeWhile_append_of_pos hl]
  simp [hx]

theorem dropWhile_run (p : Char → Bool) (l : List Char) (x : Char) (s : List Char)
    (hl : ∀ a ∈ l, p a = true) (hx : p x = false) :
    (l ++ x :: s).dropWhile p = x :: s := by
  rw [List.dropWhile_append_of_pos hl]
  simp [hx]

theorem matchItems_plus_cons {α : Type} (p : Char → Bool) (is : List Item)
    (k : Nat × Nat → Nat → List Char → Option α) (caps : Nat × Nat) (i : Nat) (x : Char)
    (s : List Char) :
    matchItems (Item.plus p :: is) k caps i (x :: s) =
      if p x = true then star p (matchItems is k caps) (i + 1) s else none := rfl

/-- Completeness at a fixed offset: a text of the shape of the pattern matches,
and the group runs from after the backslash to the end of the line. -/
theorem matchAt_re_complete (i : Nat) (H D : List Char) (c d : Char) (rest : List Char)
    (hH : H ≠ []) (hHx : ∀ x ∈ H, isHexUpper x = true)
    (hD : D ≠ []) (hDx : ∀ x ∈ D, isDigit x = true)
    (hc : isPerlSpace c = false) (hd : d ≠ '\n') :
    matchAt re i (usbVid ++ (H ++ (andPid ++ (D ++ '\\' :: c :: d :: rest)))) =
      some [i, i + 8 + H.length + 5 + D.length + 3 + (rest.takeWhile notNewline).length,
            i + 8 + H.length + 5 + D.length + 1,
            i + 8 + H.length + 5 + D.length + 3 + (rest.takeWhile notNewline).length] := by
  obtain ⟨h, H', rfl⟩ := List.exists_cons_of_ne_nil hH
  obtain ⟨d0, D', rfl⟩ := List.exists_cons_of_ne_nil hD
  have hh : isHexUpper h = true := hHx h (by simp)
  have hH' : ∀ a ∈ H', isHexUpper a = true := fun a ha => hHx a (by simp [ha])
  have hd0 : isDigit d0 = true := hDx d0 (by simp)
  have hD' : ∀ a ∈ D', isDigit a = true := fun a ha => hDx a (by simp [ha])
  unfold matchAt
  rw [re_eq, lits, matchItems_lits]
  rw [List.cons_append, matchItems_plus_cons, if_pos hh,
    star_eq_of_reject isHexUpper _ (fun j c s hc => reTail1_reject _ _ j c s hc)]
  have e1 : ∀ X : List Char, andPid ++ X = '&' :: (['P', 'I', 'D', '_'] ++ X) := fun _ => rfl
  rw [e1, takeWhile_run isHexUpper H' '&' _ hH' (by decide),
    dropWhile_run isHexUpper H' '&' _ hH' (by decide), ← e1, reTail1_eq, lits, matchItems_lits]
  rw [List.cons_append, matchItems_plus_cons, if_pos hd0,
    star_eq_of_reject isDigit _ (fun j c s hc => reTail2_reject _ _ j c s hc),
    takeWhile_run isDigit D' '\\' _ hD' (by decide),
    dropWhile_run isDigit D' '\\' _ hD' (by decide), reTail2_eq]
  have hc' : notPerlSpace c = true := by simp [notPerlSpace, hc]
  have hd' : notNewline d = true := by simp [notNewline, hd]
  simp only [hc', hd', and_self, if_true, usbVid, andPid, List.length_cons, List.length_nil,
    Option.some.injEq]
  have e2 : i + (0 + 1 + 1 + 1 + 1 + 1 + 1 + 1 + 1) + 1 + H'.length + (0 + 1 + 1 + 1 + 1 + 1) + 1
      + D'.length = i + 8 + (H'.length + 1) + 5 + (D'.length + 1) := by omega
  rw [e2]

/-- Soundness at a fixed offset: a match of `re` exhibits the shape of the
pattern in the text, with the offsets of the match and of the group. -/
theorem matchAt_re_sound (i : Nat) (s : List Char) (loc : List Nat)
    (h : matchAt re i s = some loc) :
    ∃ H D c d rest, s = usbVid ++ (H ++ (andPid ++ (D ++ '\\' :: c :: d :: rest))) ∧
      H ≠ [] ∧ (∀ x ∈ H, isHexUpper x = true) ∧ D ≠ [] ∧ (∀ x ∈ D, isDigit x = true) ∧
      isPerlSpace c = false ∧ d ≠ '\n' ∧
      loc = [i, i + 8 + H.length + 5 + D.length + 3 + (rest.takeWhile notNewline).length,
            i + 8 + H.length + 5 + D.length + 1,
            i + 8 + H.length + 5 + D.length + 3 + (rest.takeWhile notNewline).length] := by
  unfold matchAt at h
  rw [re_eq, lits] at h
  obtain ⟨s1, rfl, h1⟩ := matchItems_lits_some _ _ _ _ _ _ _ h
  obtain ⟨x, s1', rfl, hx, h2⟩ := matchItems_plus_some _ _ _ _ _ _ _ h1
  rw [star_eq_of_reject isHexUpper _ (fun j c s hc => reTail1_reject _ _ j c s hc),
    reTail1_eq, lits] at h2
  obtain ⟨s3, hs3, h3⟩ := matchItems_lits_some _ _ _ _ _ _ _ h2
  obtain ⟨y, s3', rfl, hy, h4⟩ := matchItems_plus_some _ _ _ _ _ _ _ h3
  rw [star_eq_of_reject isDigit _ (fun j c s hc => reTail2_reject _ _ j c s hc),
    reTail2_eq] at h4
  split at h4
  · rename_i b c d rest hdrop
    split at h4
    · rename_i hcond
      obtain ⟨hb, hc, hd⟩ := hcond
      refine ⟨x :: s1'.takeWhile isHexUpper, y :: s3'.takeWhile isDigit, c, d, rest, ?_, by simp,
        ?_, by simp, ?_, ?_, ?_, ?_⟩
      · have e1 : s1' = s1'.takeWhile isHexUpper ++ s1'.dropWhile isHexUpper :=
          (List.takeWhile_append_dropWhile isHexUpper s1').symm
        have e3 : s3' = s3'.takeWhile isDigit ++ s3'.dropWhile isDigit :=
          (List.takeWhile_append_dropWhile isDigit s3').symm
        rw [hdrop, hb] at e3
        rw [hs3] at e1
        conv_lhs => rw [e1, e3]
        simp
      · intro a ha
        rcases List.mem_cons.1 ha with rfl | ha
        · exact hx
        · exact List.mem_takeWhile_imp ha
      · intro a ha
        rcases List.mem_cons.1 ha with rfl | ha
        · exact hy
        · exact List.mem_takeWhile_imp ha
      · simpa [notPerlSpace] using hc
      · simpa [notNewline] using hd
      · simp only [Option.some.injEq] at h4
        rw [← h4]
        simp only [usbVid, andPid, List.length_cons, List.length_nil]
        have e2 : i + (0 + 1 + 1 + 1 + 1 + 1 + 1 + 1 + 1) + 1 +
            (List.takeWhile isHexUpper s1').length + (0 + 1 + 1 + 1 + 1 + 1) + 1 +
            (List.takeWhile isDigit s3').length =
            i + 8 + ((List.takeWhile isHexUpper s1').length + 1) + 5 +
            ((List.takeWhile isDigit s3').length + 1) := by omega
        rw [e2]
    · exact absurd h4 (by simp)
  · exact absurd h4 (by simp)

/-! ## Leftmost search and `getUSBSerialNumber` -/

theorem findFrom_of_matchAt (r : List Item) (i : Nat) (s : List Char) (loc : List Nat)
    (h : matchAt r i s = some loc) : findFrom r i s = some loc := by
  cases s with
  | nil => simpa [findFrom] using h
  | cons c s => simp [findFrom, h]

theorem findFrom_sound (r : List Item) (i : Nat) (s : List Char) (loc : List Nat)
    (h : findFrom r i s = some loc) :
    ∃ pre s', s = pre ++ s' ∧ matchAt r (i + pre.length) s' = some loc := by
  induction s generalizing i with
  | nil => exact ⟨[], [], rfl, by simpa [findFrom] using h⟩
  | cons c s ih =>
    simp only [findFrom] at h
    cases hm : matchAt r i (c :: s) with
    | some l =>
      rw [hm] at h
      exact ⟨[], c :: s, rfl, by simpa [hm] using h⟩
    | none =>
      rw [hm] at h
      obtain ⟨pre, s', hs, hm'⟩ := ih (i + 1) h
      refine ⟨c :: pre, s', by simp [hs], ?_⟩
      have e : i + (c :: pre).length = i + 1 + pre.length := by simp; omega
      rw [e]; exact hm'

theorem getUSBSerialNumber_of_shape (H D : List Char) (c d : Char) (rest : List Char)
    (hH : H ≠ []) (hHx : ∀ x ∈ H, isHexUpper x = true)
    (hD : D ≠ []) (hDx : ∀ x ∈ D, isDigit x = true)
    (hc : isPerlSpace c = false) (hd : d ≠ '\n') :
    getUSBSerialNumber (usbVid ++ (H ++ (andPid ++ (D ++ '\\' :: c :: d :: rest)))) =
      (c :: d :: rest.takeWhile notNewline, true) := by
  have hm := matchAt_re_complete 0 H D c d rest hH hHx hD hDx hc hd
  have hf := findFrom_of_matchAt re 0 _ _ hm
  unfold getUSBSerialNumber FindStringSubmatchIndex
  rw [hf]
  simp only [List.length_cons, List.length_nil, List.getD_cons_succ, List.getD_cons_zero]
  simp only [slice, usbVid, andPid]
  have e1 : ∀ X : List Char, ['U', 'S', 'B', '\\', 'V', 'I', 'D', '_'] ++ (H ++ (['&', 'P', 'I', 'D', '_'] ++ (D ++ '\\' :: X)))
      = (['U', 'S', 'B', '\\', 'V', 'I', 'D', '_'] ++ H ++ ['&', 'P', 'I', 'D', '_'] ++ D ++ ['\\']) ++ X := by
    intro X; simp
  have e2 : 0 + 8 + H.length + 5 + D.length + 1
      = (['U', 'S', 'B', '\\', 'V', 'I', 'D', '_'] ++ H ++ ['&', 'P', 'I', 'D', '_'] ++ D ++ ['\\']).length := by
    simp; omega
  have e3 : 0 + 8 + H.length + 5 + D.length + 3 + (List.takeWhile notNewline rest).length
      - (0 + 8 + H.length + 5 + D.length + 1) = 2 + (List.takeWhile notNewline rest).length := by
    omega
  rw [e3, e1, e2, List.drop_left]
  have e4 : c :: d :: rest = (c :: d :: rest.takeWhile notNewline) ++ rest.dropWhile notNewline := by
    simp
  have e5 : 2 + (List.takeWhile notNewline rest).length
      = (c :: d :: rest.takeWhile notNewline).length := by simp; omega
  rw [e5]
  conv_lhs => rw [e4]
  rw [List.take_left]
  simp

theorem hasUsbPath_of_getUSBSerialNumber (t : List Char) (h : (getUSBSerialNumber t).2 = true) :
    HasUsbPath t := by
  unfold getUSBSerialNumber FindStringSubmatchIndex at h
  cases hf : findFrom re 0 t with
  | none => rw [hf] at h; simp at h
  | some loc =>
    obtain ⟨pre, s', hs, hm⟩ := findFrom_sound re 0 t loc hf
    obtain ⟨H, D, c, d, rest, hs', hH, hHx, hD, hDx, hc, _, _⟩ := matchAt_re_sound _ _ _ hm
    exact ⟨pre, H, D, c, d :: rest, by rw [hs, hs'], hH, hHx, hD, hDx, hc⟩

theorem getUSBSerialNumber_fst_of_false (t : List Char) (h : (getUSBSerialNumber t).2 = false) :
    getUSBSerialNumber t = ([], false) := by
  unfold getUSBSerialNumber at h ⊢
  cases hf : FindStringSubmatchIndex re t with
  | none => rfl
  | some loc =>
    rw [hf] at h
    by_cases hl : loc.length ≠ 4
    · simp [hl]
    · simp [hl] at h

/-! ## `ParseUint` on decimal numerals -/

theorem isDigit_iff (c : Char) : isDigit c = true ↔ 48 ≤ c.toNat ∧ c.toNat ≤ 57 := by
  simp only [isDigit, Bool.and_eq_true, decide_eq_true_eq]
  rfl

theorem digitVal_of_isDigit (c : Char) (h : isDigit c = true) :
    digitVal c = some (c.toNat - 48) ∧ c.toNat - 48 < 10 := by
  have h' := (isDigit_iff c).1 h
  constructor
  · have : '0' ≤ c ∧ c ≤ '9' := by simpa [isDigit] using h
    simp [digitVal, this]
  · omega

theorem digitVal_of_not_isDigit (c : Char) (h : isDigit c = false) (d : Nat)
    (hd : digitVal c = some d) : 10 ≤ d := by
  have : ¬ ('0' ≤ c ∧ c ≤ '9') := by simpa [isDigit] using h
  unfold digitVal at hd
  rw [if_neg this] at hd
  split at hd
  · simp only [Option.some.injEq] at hd
    omega
  · exact absurd hd (by simp)

theorem decimalFrom_le (n : Nat) (s : List Char) : n ≤ decimalFrom n s := by
  induction s generalizing n with
  | nil => simp [decimalFrom]
  | cons c s ih =>
    have := ih (n * 10 + (c.toNat - 48))
    simp only [decimalFrom, List.foldl_cons] at this ⊢
    omega

theorem parseLoop_step (c : Char) (cs : List Char) (n : Nat) (hc : isDigit c = true)
    (hn : n ≤ 65535) :
    parseLoop 10 ((2 ^ 64 - 1) / 10 + 1) (2 ^ 16 - 1) (c :: cs) n =
      if 65535 < n * 10 + (c.toNat - 48) then Except.error GoError.numRange
      else parseLoop 10 ((2 ^ 64 - 1) / 10 + 1) (2 ^ 16 - 1) cs (n * 10 + (c.toNat - 48)) := by
  obtain ⟨hd, hlt⟩ := digitVal_of_isDigit c hc
  have h1 : ¬ (10 ≤ c.toNat - 48) := by omega
  have h2 : ¬ ((2 ^ 64 - 1) / 10 + 1 ≤ n) := by
    norm_num
    omega
  have h3 : (n * 10) % 2 ^ 64 = n * 10 := by
    apply Nat.mod_eq_of_lt
    norm_num
    omega
  have h4 : (n * 10 + (c.toNat - 48)) % 2 ^ 64 = n * 10 + (c.toNat - 48) := by
    apply Nat.mod_eq_of_lt
    norm_num
    omega
  simp only [parseLoop, hd, if_neg h1, if_neg h2, h3, h4]
  have h5 : ¬ (n * 10 + (c.toNat - 48) < n * 10) := by omega
  have h6 : (2 : Nat) ^ 16 - 1 = 65535 := by norm_num
  simp only [h5, false_or, h6]

theorem parseLoop_ok (cs : List Char) (n : Nat) (hcs : ∀ c ∈ cs, isDigit c = true)
    (hv : decimalFrom n cs ≤ 65535) :
    parseLoop 10 ((2 ^ 64 - 1) / 10 + 1) (2 ^ 16 - 1) cs n = Except.ok (decimalFrom n cs) := by
  induction cs generalizing n with
  | nil => simp [parseLoop, decimalFrom]
  | cons c cs ih =>
    have hc : isDigit c = true := hcs c (by simp)
    have hstep : decimalFrom n (c :: cs) = decimalFrom (n * 10 + (c.toNat - 48)) cs := rfl
    have hle := decimalFrom_le (n * 10 + (c.toNat - 48)) cs
    rw [hstep] at hv ⊢
    rw [parseLoop_step c cs n hc (by omega), if_neg (by omega)]
    exact ih _ (fun a ha => hcs a (by simp [ha])) hv

theorem parseLoop_sound (cs : List Char) (n v : Nat) (hn : n ≤ 65535)
    (h : parseLoop 10 ((2 ^ 64 - 1) / 10 + 1) (2 ^ 16 - 1) cs n = Except.ok v) :
    (∀ c ∈ cs, isDigit c = true) ∧ v = decimalFrom n cs ∧ v ≤ 65535 := by
  induction cs generalizing n with
  | nil =>
    simp only [parseLoop, Except.ok.injEq] at h
    subst h
    exact ⟨by simp, rfl, hn⟩
  | cons c cs ih =>
    cases hc : isDigit c with
    | true =>
      rw [parseLoop_step c cs n hc hn] at h
      by_cases hbig : 65535 < n * 10 + (c.toNat - 48)
      · rw [if_pos hbig] at h
        exact absurd h (by simp)
      · rw [if_neg hbig] at h
        obtain ⟨h1, h2, h3⟩ := ih _ (by omega) h
        refine ⟨?_, h2, h3⟩
        intro a ha
        rcases List.mem_cons.1 ha with rfl | ha
        · exact hc
        · exact h1 a ha
    | false =>
      exfalso
      simp only [parseLoop] at h
      cases hd : digitVal c with
      | none => rw [hd] at h; exact absurd h (by simp)
      | some d =>
        rw [hd] at h
        have := digitVal_of_not_isDigit c hc d hd
        simp only [if_pos this] at h
        exact absurd h (by simp)

/-- On a plain decimal numeral of value at most 65535, `ParseUint` with base 10
and bit size 16 returns the value. -/
theorem ParseUint_of_decimal (s : List Char) (hs : IsDecimal s) (hv : decimalValue s ≤ 65535) :
    ParseUint s 10 16 = Except.ok (decimalValue s) := by
  unfold ParseUint
  rw [if_neg hs.1]
  exact parseLoop_ok s 0 hs.2 hv

/-- Whenever `ParseUint` with base 10 and bit size 16 returns a value, the text
is a plain decimal numeral of that value, which is at most 65535. -/
theorem decimal_of_ParseUint (s : List Char) (v : Nat) (h : ParseUint s 10 16 = Except.ok v) :
    IsDecimal s ∧ decimalValue s = v ∧ v ≤ 65535 := by
  unfold ParseUint at h
  by_cases hs : s = []
  · rw [if_pos hs] at h
    exact absurd h (by simp)
  · rw [if_neg hs] at h
    obtain ⟨h1, h2, h3⟩ := parseLoop_sound s 0 v (by omega) h
    exact ⟨⟨hs, h1⟩, h2.symm, h3⟩

/-- The errors of `ParseUint` are the syntax error and the range error. -/
theorem parseLoop_error (base cutoff maxVal : Nat) (cs : List Char) (n : Nat) (err : GoError)
    (h : parseLoop base cutoff maxVal cs n = Except.error err) :
    err = GoError.numSyntax ∨ err = GoError.numRange := by
  induction cs generalizing n with
  | nil => simp [parseLoop] at h
  | cons c cs ih =>
    simp only [parseLoop] at h
    split at h
    · simp only [Except.error.injEq] at h
      exact Or.inl h.symm
    · split at h
      · simp only [Except.error.injEq] at h
        exact Or.inl h.symm
      · split at h
        · simp only [Except.error.injEq] at h
          exact Or.inr h.symm
        · split at h
          · simp only [Except.error.injEq] at h
            exact Or.inr h.symm
          · exact ih _ h

theorem ParseUint_error (s : List Char) (base bitSize : Nat) (err : GoError)
    (h : ParseUint s base bitSize = Except.error err) :
    err = GoError.numSyntax ∨ err = GoError.numRange := by
  unfold ParseUint at h
  split at h
  · simp only [Except.error.injEq] at h
    exact Or.inl h.symm
  · exact parseLoop_error _ _ _ _ _ _ h

/-! ## `processEvent` -/

theorem scanData_skip (computer : List Char) (e : Element) (es : List Element)
    (h : yieldsSerial e = false) : scanData computer (e :: es) = scanData computer es := by
  unfold yieldsSerial isDeviceIdField at h
  simp only [scanData]
  cases ha : e.SelectAttr keyName with
  | none => rfl
  | some attr =>
    rw [ha] at h
    by_cases hv : attr.Value = valDeviceId
    · simp only [hv, decide_True, Bool.true_and] at h
      simp only [hv, ne_eq, not_true_eq_false, if_false]
      rw [getUSBSerialNumber_fst_of_false _ h]
    · simp [hv]

theorem scanData_hit (computer : List Char) (e : Element) (es : List Element) (s : List Char)
    (hd : isDeviceIdField e = true) (hs : getUSBSerialNumber e.Text = (s, true)) :
    scanData computer (e :: es) = (⟨computer, s⟩, none) := by
  unfold isDeviceIdField at hd
  simp only [scanData]
  cases ha : e.SelectAttr keyName with
  | none => rw [ha] at hd; exact absurd hd (by simp)
  | some attr =>
    rw [ha] at hd
    have hv : attr.Value = valDeviceId := by simpa using hd
    simp [hv, hs]

theorem scanData_first (computer : List Char) (pre : List Element) (d : Element)
    (post : List Element) (s : List Char) (hpre : ∀ e ∈ pre, yieldsSerial e = false)
    (hd : isDeviceIdField d = true) (hs : getUSBSerialNumber d.Text = (s, true)) :
    scanData computer (pre ++ d :: post) = (⟨computer, s⟩, none) := by
  induction pre with
  | nil => exact scanData_hit computer d post s hd hs
  | cons e pre ih =>
    rw [List.cons_append, scanData_skip computer e _ (hpre e (by simp))]
    exact ih (fun x hx => hpre x (by simp [hx]))

theorem scanData_none (computer : List Char) (l : List Element)
    (h : ∀ e ∈ l, yieldsSerial e = false) :
    scanData computer l = (usbplugevent.zero, some GoError.ErrNotFound) := by
  induction l with
  | nil => rfl
  | cons e l ih =>
    rw [scanData_skip computer e _ (h e (by simp))]
    exact ih (fun x hx => h x (by simp [hx]))

theorem scanData_same (computer : List Char) (l : List Element) (s : List Char)
    (hex : ∃ d ∈ l, isDeviceIdField d = true)
    (hall : ∀ d ∈ l, isDeviceIdField d = true → getUSBSerialNumber d.Text = (s, true)) :
    scanData computer l = (⟨computer, s⟩, none) := by
  induction l with
  | nil => obtain ⟨d, hd, _⟩ := hex; simp at hd
  | cons e l ih =>
    cases he : isDeviceIdField e with
    | true => exact scanData_hit computer e l s he (hall e (by simp) he)
    | false =>
      rw [scanData_skip computer e l (by simp [yieldsSerial, he])]
      apply ih
      · obtain ⟨d, hd, hdd⟩ := hex
        rcases List.mem_cons.1 hd with rfl | hd
        · rw [he] at hdd; exact absurd hdd (by simp)
        · exact ⟨d, hd, hdd⟩
      · exact fun d hd => hall d (by simp [hd])

/-- The path of `processEvent` up to the scan of the data fields. -/
theorem processEvent_scan (R : Reader) (t : List Char) (doc : Document) (e pe ce : Element)
    (a : Attr) (hR : R t = Except.ok doc) (hid : doc.EventID = some e)
    (hdec : IsDecimal e.Text) (hval : decimalValue e.Text = 6416)
    (hp : doc.Provider = some pe) (ha : pe.SelectAttr keyName = some a)
    (hav : a.Value = providerName) (hc : doc.Computer = some ce) :
    processEvent R t = some (scanData ce.Text doc.Data) := by
  have hparse := ParseUint_of_decimal e.Text hdec (by omega)
  rw [hval] at hparse
  simp [processEvent, hR, hid, hparse, hp, ha, hav, hc]

theorem sampleDeviceId_serial :
    getUSBSerialNumber sampleDeviceId = ("ABC123SERIAL".toList, true) := by decide

/-! ## Claims on `processEvent` -/

/-- C1: for a parsed record whose EventID text is `6416`, whose Provider has the
`Name` attribute `Microsoft-Windows-Security-Auditing`, whose Computer element
has text `h`, and all of whose `DeviceId` data fields (there is at least one)
have the text `USB\VID_1234&PID_5678\ABC123SERIAL`, `processEvent` returns the
association of `h` with `ABC123SERIAL` and a nil error. -/
theorem processEvent_sample_association (R : Reader) (t : List Char) (doc : Document)
    (e pe ce : Element) (a : Attr) (h : List Char)
    (hR : R t = Except.ok doc) (hid : doc.EventID = some e) (htext : e.Text = "6416".toList)
    (hp : doc.Provider = some pe) (ha : pe.SelectAttr keyName = some a)
    (hav : a.Value = providerName) (hc : doc.Computer = some ce) (hh : ce.Text = h)
    (hex : ∃ d ∈ doc.Data, isDeviceIdField d = true)
    (hall : ∀ d ∈ doc.Data, isDeviceIdField d = true → d.Text = sampleDeviceId) :
    processEvent R t = some (⟨h, "ABC123SERIAL".toList⟩, none) := by
  have hdec : IsDecimal e.Text := by rw [htext]; exact ⟨by decide, by decide⟩
  have hval : decimalValue e.Text = 6416 := by rw [htext]; decide
  rw [processEvent_scan R t doc e pe ce a hR hid hdec hval hp ha hav hc, hh]
  congr 1
  apply scanData_same h doc.Data _ hex
  intro d hd hdev
  rw [hall d hd hdev]
  exact sampleDeviceId_serial

theorem processEvent_sample_association_witness :
    processEvent (fun _ => Except.ok singleDeviceDoc) [] =
      some (⟨"PC1".toList, "ABC123SERIAL".toList⟩, none) :=
  processEvent_sample_association (fun _ => Except.ok singleDeviceDoc) [] singleDeviceDoc
    ⟨[], "6416".toList⟩ sampleProvider ⟨[], "PC1".toList⟩ ⟨keyName, providerName⟩ "PC1".toList
    rfl rfl rfl rfl rfl rfl rfl rfl (by decide) (by decide)

/-- C2: for a parsed record whose EventID text is a plain decimal numeral of
value at most 65535 and other than 6416, `processEvent` returns `ErrNotFound`
with the zero association, whatever the provider, computer and data fields. -/
theorem processEvent_other_event_id (R : Reader) (t : List Char) (doc : Document) (e : Element)
    (hR : R t = Except.ok doc) (hid : doc.EventID = some e) (hdec : IsDecimal e.Text)
    (hle : decimalValue e.Text ≤ 65535) (hne : decimalValue e.Text ≠ 6416) :
    processEvent R t = some (usbplugevent.zero, some GoError.ErrNotFound) := by
  have hparse := ParseUint_of_decimal e.Text hdec hle
  simp [processEvent, hR, hid, hparse, hne]

theorem processEvent_other_event_id_witness :
    processEvent (fun _ => Except.ok { sampleDoc with EventID := some ⟨[], "4624".toList⟩ }) [] =
      some (usbplugevent.zero, some GoError.ErrNotFound) :=
  processEvent_other_event_id (fun _ => Except.ok { sampleDoc with EventID := some ⟨[], "4624".toList⟩ })
    [] { sampleDoc with EventID := some ⟨[], "4624".toList⟩ } ⟨[], "4624".toList⟩ rfl rfl
    ⟨by decide, by decide⟩ (by decide) (by decide)

/-- C8: for a parsed record with EventID 6416, the required provider name and a
Computer element with text `h`, `processEvent` scans the `Data` elements in
the order of the query result: when the first field that is a `DeviceId` field
on which `getUSBSerialNumber` succeeds gives the serial `s`, the result is the
association of `h` with `s` and a nil error, whatever the later fields are;
when no field is such, the result is `ErrNotFound` with the zero
association. -/
theorem processEvent_first_serial_wins (R : Reader) (t : List Char) (doc : Document)
    (e pe ce : Element) (a : Attr) (h : List Char)
    (hR : R t = Except.ok doc) (hid : doc.EventID = some e)
    (hdec : IsDecimal e.Text) (hval : decimalValue e.Text = 6416)
    (hp : doc.Provider = some pe) (ha : pe.SelectAttr keyName = some a)
    (hav : a.Value = providerName) (hc : doc.Computer = some ce) (hh : ce.Text = h) :
    (∀ pre d post s, doc.Data = pre ++ d :: post → (∀ x ∈ pre, yieldsSerial x = false) →
        isDeviceIdField d = true → getUSBSerialNumber d.Text = (s, true) →
        processEvent R t = some (⟨h, s⟩, none)) ∧
    ((∀ x ∈ doc.Data, yieldsSerial x = false) →
        processEvent R t = some (usbplugevent.zero, some GoError.ErrNotFound)) := by
  rw [processEvent_scan R t doc e pe ce a hR hid hdec hval hp ha hav hc, hh]
  constructor
  · intro pre d post s hdata hpre hd hs
    rw [hdata, scanData_first h pre d post s hpre hd hs]
  · intro hall
    rw [scanData_none h doc.Data hall]

theorem processEvent_first_serial_wins_witness :
    processEvent (fun _ => Except.ok sampleDoc) [] =
      some (⟨"PC1".toList, "ABC123SERIAL".toList⟩, none) :=
  (processEvent_first_serial_wins (fun _ => Except.ok sampleDoc) [] sampleDoc
    ⟨[], "6416".toList⟩ sampleProvider ⟨[], "PC1".toList⟩ ⟨keyName, providerName⟩ "PC1".toList
    rfl rfl ⟨by decide, by decide⟩ (by decide) rfl rfl rfl rfl rfl).1
    [⟨[⟨"Name".toList, "ClassName".toList⟩], "USB".toList⟩,
     ⟨[⟨"Name".toList, "DeviceId".toList⟩], "PCI\\VEN_1234".toList⟩]
    ⟨[⟨"Name".toList, "DeviceId".toList⟩], sampleDeviceId⟩
    [⟨[⟨"Name".toList, "DeviceId".toList⟩], "USB\\VID_1&PID_2\\ZZ".toList⟩]
    "ABC123SERIAL".toList rfl (by decide) (by decide) (by decide)

/-- C9: for a parsed record with EventID 6416 whose Provider element has a
`Name` attribute with a value other than `Microsoft-Windows-Security-Auditing`
(compared exactly, character by character), `processEvent` returns
`ErrNotFound`, as for another event id, with the zero association, whatever
the Computer and data fields are. -/
theorem processEvent_other_provider (R : Reader) (t : List Char) (doc : Document)
    (e pe : Element) (a : Attr)
    (hR : R t = Except.ok doc) (hid : doc.EventID = some e)
    (hdec : IsDecimal e.Text) (hval : decimalValue e.Text = 6416)
    (hp : doc.Provider = some pe) (ha : pe.SelectAttr keyName = some a)
    (hav : a.Value ≠ providerName) :
    processEvent R t = some (usbplugevent.zero, some GoError.ErrNotFound) := by
  have hparse := ParseUint_of_decimal e.Text hdec (by omega)
  rw [hval] at hparse
  simp [processEvent, hR, hid, hparse, hp, ha, hav]

theorem processEvent_other_provider_witness :
    processEvent (fun _ => Except.ok { sampleDoc with
        Provider := some ⟨[⟨keyName, "microsoft-windows-security-auditing".toList⟩], []⟩ }) [] =
      some (usbplugevent.zero, some GoError.ErrNotFound) :=
  processEvent_other_provider _ []
    { sampleDoc with
        Provider := some ⟨[⟨keyName, "microsoft-windows-security-auditing".toList⟩], []⟩ }
    ⟨[], "6416".toList⟩ ⟨[⟨keyName, "microsoft-windows-security-auditing".toList⟩], []⟩
    ⟨keyName, "microsoft-windows-security-auditing".toList⟩
    rfl rfl ⟨by decide, by decide⟩ (by decide) rfl rfl (by decide)

/-- C10: for a parsed record that has no EventID element, or whose EventID text
is not a plain decimal numeral of value at most 65535, `processEvent` returns
the zero association and a hard error: the missing-element error, or the
syntax or range error of `ParseUint`; none of them is `ErrNotFound`. -/
theorem processEvent_bad_event_id (R : Reader) (t : List Char) (doc : Document)
    (hR : R t = Except.ok doc)
    (hbad : doc.EventID = none ∨
      ∃ e, doc.EventID = some e ∧ ¬ (IsDecimal e.Text ∧ decimalValue e.Text ≤ 65535)) :
    ∃ err, processEvent R t = some (usbplugevent.zero, some err) ∧
      err ≠ GoError.ErrNotFound ∧
      (err = GoError.noEventID ∨ err = GoError.numSyntax ∨ err = GoError.numRange) := by
  rcases hbad with hnone | ⟨e, hid, hnot⟩
  · exact ⟨GoError.noEventID, by simp [processEvent, hR, hnone], by simp, Or.inl rfl⟩
  · cases hparse : ParseUint e.Text 10 16 with
    | ok v =>
      obtain ⟨h1, h2, h3⟩ := decimal_of_ParseUint e.Text v hparse
      exact absurd ⟨h1, by omega⟩ hnot
    | error err =>
      refine ⟨err, by simp [processEvent, hR, hid, hparse], ?_, ?_⟩
      · rcases ParseUint_error _ _ _ _ hparse with h | h <;> simp [h]
      · rcases ParseUint_error _ _ _ _ hparse with h | h <;> simp [h]

theorem processEvent_bad_event_id_witness :
    ∃ err, processEvent (fun _ => Except.ok { sampleDoc with EventID := some ⟨[], "65536".toList⟩ })
        [] = some (usbplugevent.zero, some err) ∧
      err ≠ GoError.ErrNotFound ∧
      (err = GoError.noEventID ∨ err = GoError.numSyntax ∨ err = GoError.numRange) :=
  processEvent_bad_event_id _ [] { sampleDoc with EventID := some ⟨[], "65536".toList⟩ } rfl
    (Or.inr ⟨⟨[], "65536".toList⟩, rfl, fun h => absurd h.2 (by decide)⟩)

/-! ## `extractPlugEvents` -/

/-- C3, the code at a source whose only record is malformed (event 6416 with
no Computer element): `processEvent` reports the hard error `noComputer`, and
`extractPlugEvents` still appends the zero association and returns a nil
error, where the claim asks for an empty sequence and `ErrNotFound`. -/
theorem extractPlugEvents_keeps_failed_record :
    processEvent malformedReader malformedRecord =
        some (usbplugevent.zero, some GoError.noComputer) ∧
    extractPlugEvents malformedReader (Except.ok malformedRecord) =
        some ([usbplugevent.zero], none) := by
  constructor <;> decide

/-! ## The graph text -/

theorem foldl_append_lines {α : Type} (f : α → List Char) (l : List α) (out : List Char) :
    l.foldl (fun out x => out ++ f x) out = out ++ (l.map f).flatten := by
  induction l generalizing out with
  | nil => simp
  | cons x l ih => simp [ih]

theorem foldl_foldl_append_lines {α : Type} (f : α → List Char) (ls : List (List α))
    (out : List Char) :
    ls.foldl (fun out l => l.foldl (fun out x => out ++ f x) out) out =
      out ++ (ls.flatten.map f).flatten := by
  induction ls generalizing out with
  | nil => simp
  | cons l ls ih =>
    rw [List.foldl_cons, ih, foldl_append_lines]
    simp only [List.flatten_cons, List.map_append, List.flatten_append, List.append_assoc]

/-- C5: the text written by `createGraph` is the header line, one node line per
declared node, an empty line, one edge line per association of every set (the
sets in source order, the associations of a set in record order), and a
closing brace with no newline after it; the edge lines are as many as the
associations of all sets together. -/
theorem createGraph_text (ords : Nat → MapRange) (sets : List plugSets) :
    createGraph ords sets none = Except.ok
      ("digraph USBPlugs\x7b\n".toList ++ ((graphNodes ords sets).map nodeLine).flatten ++
        "\n".toList ++ (sets.flatten.map edgeLine).flatten ++ "\x7d".toList) ∧
    (sets.flatten.map edgeLine).length = (sets.map List.length).sum := by
  constructor
  · unfold createGraph graphText
    simp only []
    rw [foldl_foldl_append_lines, foldl_append_lines]
  · rw [List.length_map, List.length_flatten]

/-! ## The declared nodes -/

theorem mapInsert_mem (keys : List (List Char)) (k s : List Char) :
    s ∈ mapInsert keys k ↔ s ∈ keys ∨ s = k := by
  unfold mapInsert
  by_cases h : k ∈ keys
  · rw [if_pos h]
    constructor
    · exact Or.inl
    · rintro (h1 | h1)
      · exact h1
      · rw [h1]; exact h
  · rw [if_neg h]; simp

theorem mapInsert_nodup (keys : List (List Char)) (k : List Char) (h : keys.Nodup) :
    (mapInsert keys k).Nodup := by
  unfold mapInsert
  by_cases hk : k ∈ keys
  · rw [if_pos hk]; exact h
  · rw [if_neg hk]
    exact List.Nodup.append h (List.nodup_singleton k) (by simpa using hk)

theorem foldl_mapInsert_mem (set : plugSets) (acc : List (List Char)) (s : List Char) :
    s ∈ set.foldl (fun v e => mapInsert v e.serial) acc ↔ s ∈ acc ∨ s ∈ serialsOf set := by
  induction set generalizing acc with
  | nil => simp [serialsOf]
  | cons e set ih =>
    rw [List.foldl_cons, ih, mapInsert_mem]
    simp only [serialsOf, List.map_cons, List.mem_cons]
    tauto

theorem foldl_mapInsert_nodup (set : plugSets) (acc : List (List Char)) (h : acc.Nodup) :
    (set.foldl (fun v e => mapInsert v e.serial) acc).Nodup := by
  induction set generalizing acc with
  | nil => exact h
  | cons e set ih => exact ih _ (mapInsert_nodup acc e.serial h)

theorem keysOf_mem (set : plugSets) (s : List Char) : s ∈ keysOf set ↔ s ∈ serialsOf set := by
  simp [keysOf, foldl_mapInsert_mem]

theorem keysOf_nodup (set : plugSets) : (keysOf set).Nodup :=
  foldl_mapInsert_nodup set [] List.nodup_nil

theorem uniqueUSBs_perm (ord : MapRange) (h : ord.Valid) (set : plugSets) :
    (uniqueUSBs ord set).Perm (keysOf set) := h _

theorem keysOf_eq (set : plugSets) : keysOf set = firstOccurrences (serialsOf set) := by
  unfold keysOf firstOccurrences serialsOf
  rw [List.foldl_map]
  rfl

theorem gatherUniques_eq (ords : Nat → MapRange) (sets : List plugSets) (i : Nat)
    (acc : List (List Char)) :
    gatherUniques ords i sets acc = acc ++ (nodeGroups ords i sets).flatten := by
  induction sets generalizing i acc with
  | nil => simp [gatherUniques, nodeGroups]
  | cons set sets ih => rw [gatherUniques, ih]; simp [nodeGroups]

theorem graphNodes_eq (ords : Nat → MapRange) (sets : List plugSets) :
    graphNodes ords sets = (nodeGroups ords 0 sets).flatten := by
  rw [graphNodes, gatherUniques_eq]; rfl

theorem nodeGroups_forall2 (ords : Nat → MapRange) (hv : ∀ i, (ords i).Valid)
    (sets : List plugSets) (i : Nat) :
    List.Forall₂ (fun g set => g.Perm (firstOccurrences (serialsOf set)))
      (nodeGroups ords i sets) sets := by
  induction sets generalizing i with
  | nil => exact List.Forall₂.nil
  | cons set sets ih =>
    refine List.Forall₂.cons ?_ (ih (i + 1))
    rw [← keysOf_eq]
    exact uniqueUSBs_perm (ords i) (hv i) set

theorem nodeGroups_mem (ords : Nat → MapRange) (hv : ∀ i, (ords i).Valid)
    (sets : List plugSets) (i : Nat) (s : List Char) :
    s ∈ (nodeGroups ords i sets).flatten ↔ ∃ set ∈ sets, s ∈ serialsOf set := by
  induction sets generalizing i with
  | nil => simp [nodeGroups]
  | cons set sets ih =>
    simp only [nodeGroups, List.flatten_cons, List.mem_append, ih (i + 1), List.mem_cons,
      exists_eq_or_imp]
    rw [(uniqueUSBs_perm (ords i) (hv i) set).mem_iff, keysOf_mem]

theorem nodeGroups_nodup (ords : Nat → MapRange) (hv : ∀ i, (ords i).Valid)
    (sets : List plugSets) (i : Nat)
    (hdis : (sets.map serialsOf).Pairwise List.Disjoint) :
    (nodeGroups ords i sets).flatten.Nodup := by
  induction sets generalizing i with
  | nil => simp [nodeGroups]
  | cons set sets ih =>
    rw [List.map_cons, List.pairwise_cons] at hdis
    simp only [nodeGroups, List.flatten_cons]
    refine List.Nodup.append ?_ (ih (i + 1) hdis.2) ?_
    · exact ((uniqueUSBs_perm (ords i) (hv i) set).nodup_iff).2 (keysOf_nodup set)
    · intro x hx hx2
      rw [(uniqueUSBs_perm (ords i) (hv i) set).mem_iff, keysOf_mem] at hx
      obtain ⟨set2, hs2, hx2⟩ := (nodeGroups_mem ords hv sets (i + 1) x).1 hx2
      exact hdis.1 (serialsOf set2) (List.mem_map_of_mem _ hs2) hx hx2

/-- C4 as amended: the serials declared as nodes are exactly the serials that
occur in the sets; when no serial occurs in two different sets, every serial is
declared once, the serials of an earlier set before those of a later set, and
the serials of one set in the iteration order of a map, some rearrangement of
their first occurrences.  The example sets give the nodes `S1`, `S2`. -/
theorem graphNodes_declared (ords : Nat → MapRange) (hv : ∀ i, (ords i).Valid)
    (sets : List plugSets) :
    (∀ s, s ∈ graphNodes ords sets ↔ s ∈ serialsOf sets.flatten) ∧
    ((sets.map serialsOf).Pairwise List.Disjoint →
      (graphNodes ords sets).Nodup ∧
      ∃ groups : List (List (List Char)), graphNodes ords sets = groups.flatten ∧
        List.Forall₂ (fun g set => g.Perm (firstOccurrences (serialsOf set))) groups sets) ∧
    graphNodes ords sampleSets = ["S1".toList, "S2".toList] := by
  refine ⟨?_, ?_, ?_⟩
  · intro s
    rw [graphNodes_eq, nodeGroups_mem ords hv]
    simp only [serialsOf, List.mem_map, List.mem_flatten]
    constructor
    · rintro ⟨set, hset, e, he, rfl⟩
      exact ⟨e, ⟨set, hset, he⟩, rfl⟩
    · rintro ⟨e, ⟨set, hset, he⟩, rfl⟩
      exact ⟨set, hset, e, he, rfl⟩
  · intro hdis
    rw [graphNodes_eq]
    exact ⟨nodeGroups_nodup ords hv sets 0 hdis, nodeGroups ords 0 sets, rfl,
      nodeGroups_forall2 ords hv sets 0⟩
  · have h0 : uniqueUSBs (ords 0) [⟨"H1".toList, "S1".toList⟩, ⟨"H2".toList, "S1".toList⟩]
        = ["S1".toList] :=
      List.perm_singleton.1 (hv 0 ["S1".toList])
    have h1 : uniqueUSBs (ords 1) [⟨"H3".toList, "S2".toList⟩] = ["S2".toList] :=
      List.perm_singleton.1 (hv 1 ["S2".toList])
    rw [graphNodes_eq]
    simp only [sampleSets, nodeGroups, h0, h1]
    rfl

theorem graphNodes_declared_witness :
    graphNodes (fun _ => id) sampleSets = ["S1".toList, "S2".toList] :=
  (graphNodes_declared (fun _ => id) (fun _ _ => List.Perm.refl _) sampleSets).2.2

/-- C4 as stated fails: a serial that occurs in two different sets is declared
twice, and within a set the order is the iteration order of a map, here the
reverse of the order of first occurrence. -/
theorem graphNodes_not_first_occurrences :
    (graphNodes (fun _ => id) [[⟨"H1".toList, "S1".toList⟩], [⟨"H2".toList, "S1".toList⟩]]
        = ["S1".toList, "S1".toList] ∧
      firstOccurrences (serialsOf
          [[(⟨"H1".toList, "S1".toList⟩ : usbplugevent)], [⟨"H2".toList, "S1".toList⟩]].flatten)
        = ["S1".toList]) ∧
    (MapRange.Valid List.reverse ∧
      graphNodes (fun _ => List.reverse)
          [[⟨"H1".toList, "S1".toList⟩, ⟨"H1".toList, "S2".toList⟩]]
        = ["S2".toList, "S1".toList] ∧
      firstOccurrences (serialsOf
          [[(⟨"H1".toList, "S1".toList⟩ : usbplugevent), ⟨"H1".toList, "S2".toList⟩]].flatten)
        = ["S1".toList, "S2".toList]) := by
  refine ⟨⟨by decide, by decide⟩, fun keys => List.reverse_perm keys, by decide, by decide⟩

/-! ## Claims on `getUSBSerialNumber` -/

/-- C6 as amended: a text that nowhere contains a USB path (`USB\VID_`, digits
of `[0-9A-F]`, `&PID_`, decimal digits, a backslash and a character outside
`\s`) is rejected with an empty serial; the path may stand anywhere in the
text, the match is not anchored at its start. -/
theorem getUSBSerialNumber_rejects (t : List Char) (h : ¬ HasUsbPath t) :
    getUSBSerialNumber t = ([], false) := by
  cases hb : (getUSBSerialNumber t).2 with
  | true => exact absurd (hasUsbPath_of_getUSBSerialNumber t hb) h
  | false => exact getUSBSerialNumber_fst_of_false t hb

theorem getUSBSerialNumber_rejects_witness :
    getUSBSerialNumber "PCI\\VEN_1234".toList = ([], false) :=
  getUSBSerialNumber_rejects "PCI\\VEN_1234".toList (by
    rintro ⟨pre, H, D, c, rest, h, _⟩
    have hU : 'U' ∈ "PCI\\VEN_1234".toList := by
      rw [h]; simp [usbVid]
    exact absurd hU (by decide))

/-- C6 as stated fails: a text that does not begin with a USB path but
contains one after other leading text is accepted. -/
theorem getUSBSerialNumber_not_anchored :
    ¬ BeginsWithUsbPath "ID=USB\\VID_0781&PID_5581\\4C530001".toList ∧
    getUSBSerialNumber "ID=USB\\VID_0781&PID_5581\\4C530001".toList =
      ("4C530001".toList, true) := by
  constructor
  · rintro ⟨H, D, c, rest, h, _⟩
    have h0 : ("ID=USB\\VID_0781&PID_5581\\4C530001".toList).head? = some 'U' := by
      rw [h]; rfl
    exact absurd h0 (by decide)
  · decide

/-- C7 as amended: on `USB\VID_` + H + `&PID_` + D + a backslash + S, with H one
or more digits of `[0-9A-F]`, D one or more decimal digits, and S of at least
two characters, the first outside `\s` and none a newline,
`getUSBSerialNumber` succeeds and returns exactly S. -/
theorem getUSBSerialNumber_accepts (H D S : List Char)
    (hH : H ≠ []) (hHx : ∀ x ∈ H, isHexUpper x = true)
    (hD : D ≠ []) (hDx : ∀ x ∈ D, isDigit x = true)
    (hlen : 2 ≤ S.length) (hfirst : ∀ c ∈ S.head?, isPerlSpace c = false)
    (hline : '\n' ∉ S) :
    getUSBSerialNumber (usbVid ++ (H ++ (andPid ++ (D ++ '\\' :: S)))) = (S, true) := by
  match S, hlen, hfirst, hline with
  | c :: d :: rest, _, hfirst, hline =>
    have hc : isPerlSpace c = false := hfirst c (by simp)
    have hd : d ≠ '\n' := fun hd => hline (by simp [hd])
    have hrest : rest.takeWhile notNewline = rest := by
      rw [List.takeWhile_eq_self_iff]
      intro x hx
      have : x ≠ '\n' := fun hx' => hline (by rw [← hx']; simp [hx])
      simp [notNewline, this]
    rw [getUSBSerialNumber_of_shape H D c d rest hH hHx hD hDx hc hd, hrest]

theorem getUSBSerialNumber_accepts_witness :
    getUSBSerialNumber (usbVid ++ ("1234".toList ++ (andPid ++ ("5678".toList ++
      '\\' :: "AB".toList)))) = ("AB".toList, true) :=
  getUSBSerialNumber_accepts "1234".toList "5678".toList "AB".toList (by decide) (by decide)
    (by decide) (by decide) (by decide) (by decide) (by decide)

/-- C7 as stated fails: a suffix of a single character is rejected, and of a
suffix with a newline only the first line is returned. -/
theorem getUSBSerialNumber_short_or_two_lines :
    (¬ ∀ H D S : List Char, H ≠ [] → (∀ x ∈ H, isHexUpper x = true) → D ≠ [] →
        (∀ x ∈ D, isDigit x = true) → S ≠ [] → (∀ c ∈ S.head?, isPerlSpace c = false) →
        getUSBSerialNumber (usbVid ++ (H ++ (andPid ++ (D ++ '\\' :: S)))) = (S, true)) ∧
    getUSBSerialNumber "USB\\VID_1234&PID_5678\\A".toList = ([], false) ∧
    getUSBSerialNumber "USB\\VID_1234&PID_5678\\AB\nCD".toList = ("AB".toList, true) := by
  refine ⟨fun h => ?_, by decide, by decide⟩
  have := h "1234".toList "5678".toList "A".toList (by decide) (by decide) (by decide)
    (by decide) (by decide) (by decide)
  exact absurd this (by decide)

/-! ## Occurrences of the delimiter and `strings.Index` -/

theorem occursAt_zero_iff (sub s : List Char) : OccursAt sub s 0 ↔ sub <+: s := by
  constructor
  · rintro ⟨a, b, h, ha⟩
    have : a = [] := List.length_eq_zero.1 ha
    subst this
    exact ⟨b, by simpa using h.symm⟩
  · rintro ⟨b, h⟩
    exact ⟨[], b, by simpa using h.symm, rfl⟩

theorem occursAt_succ_iff (sub : List Char) (c : Char) (s : List Char) (n : Nat) :
    OccursAt sub (c :: s) (n + 1) ↔ OccursAt sub s n := by
  constructor
  · rintro ⟨a, b, h, ha⟩
    cases a with
    | nil => simp at ha
    | cons x a =>
      simp only [List.cons_append, List.cons.injEq] at h
      exact ⟨a, b, h.2, by simpa using ha⟩
  · rintro ⟨a, b, h, ha⟩
    exact ⟨c :: a, b, by simp [h], by simp [ha]⟩

theorem not_occursAt_nil_succ (sub : List Char) (n : Nat) : ¬ OccursAt sub [] (n + 1) := by
  rintro ⟨a, b, h, ha⟩
  cases a with
  | nil => simp at ha
  | cons x a => simp at h

/-- The result of `Index` is the first occurrence, and -1 means there is none. -/
theorem Index_spec (sub s : List Char) :
    match Index s sub with
    | some n => FirstOccurrence sub s n
    | none => ∀ n, ¬ OccursAt sub s n := by
  induction s with
  | nil =>
    simp only [Index]
    by_cases h : sub.isPrefixOf [] = true
    · rw [if_pos h]
      exact ⟨(occursAt_zero_iff sub []).2 ( List.isPrefixOf_iff_prefix.1 h), fun m _ => Nat.zero_le m⟩
    · rw [if_neg h]
      intro n
      cases n with
      | zero =>
        rw [occursAt_zero_iff]
        exact fun hp => h ( List.isPrefixOf_iff_prefix.2 hp)
      | succ n => exact not_occursAt_nil_succ sub n
  | cons c s ih =>
    simp only [Index]
    by_cases h : sub.isPrefixOf (c :: s) = true
    · rw [if_pos h]
      exact ⟨(occursAt_zero_iff sub _).2 ( List.isPrefixOf_iff_prefix.1 h), fun m _ => Nat.zero_le m⟩
    · rw [if_neg h]
      have h0 : ¬ OccursAt sub (c :: s) 0 := by
        rw [occursAt_zero_iff]
        exact fun hp => h ( List.isPrefixOf_iff_prefix.2 hp)
      cases hi : Index s sub with
      | none =>
        rw [hi] at ih
        intro n
        cases n with
        | zero => exact h0
        | succ n =>
          rw [occursAt_succ_iff]
          exact ih n
      | some n =>
        rw [hi] at ih
        refine ⟨(occursAt_succ_iff sub c s n).2 ih.1, ?_⟩
        intro m hm
        cases m with
        | zero => exact absurd hm h0
        | succ m =>
          have := ih.2 m ((occursAt_succ_iff sub c s m).1 hm)
          simp only [Option.map_some', ge_iff_le]
          omega

theorem Index_of_first (sub s : List Char) (n : Nat) (h : FirstOccurrence sub s n) :
    Index s sub = some n := by
  have hs := Index_spec sub s
  cases hi : Index s sub with
  | none =>
    rw [hi] at hs
    exact absurd h.1 (hs n)
  | some m =>
    rw [hi] at hs
    have h1 := hs.2 n h.1
    have h2 := h.2 m hs.1
    congr 1
    omega

theorem Index_of_none (sub s : List Char) (h : ∀ n, ¬ OccursAt sub s n) :
    Index s sub = none := by
  have hs := Index_spec sub s
  cases hi : Index s sub with
  | none => rfl
  | some m =>
    rw [hi] at hs
    exact absurd hs.1 (h m)

/-! ## The split function `sp` -/

theorem sp_of_index_some (data : List Char) (atEOF : Bool) (n : Nat)
    (h : Index data delim = some n) : sp data atEOF = (n + 8, some (data.take (n + 8))) := by
  simp [sp, h]

theorem sp_of_index_none_false (data : List Char) (h : Index data delim = none) :
    sp data false = (0, none) := by
  simp [sp, h]

theorem sp_of_index_none_true (data : List Char) (h : Index data delim = none) :
    sp data true = (if data.length = 0 then 1 else data.length, some data) := by
  simp [sp, h]

theorem take_of_occursAt (sub s : List Char) (n : Nat) (h : OccursAt sub s n) :
    s.take (n + sub.length) = s.take n ++ sub ∧ n + sub.length ≤ s.length := by
  obtain ⟨a, b, hs, ha⟩ := h
  subst hs
  subst ha
  refine ⟨?_, by simp⟩
  rw [List.take_left, ← List.append_assoc]
  have : a.length + sub.length = (a ++ sub).length := by simp
  rw [this, List.take_left]

/-- C12: the split function cuts at the first occurrence of the delimiter: when
the first occurrence in `data` is at index `n`, the token is `data[0 : n+8]`
with advance `n+8`, at end of input or not; the token ends with the delimiter
and contains it nowhere else.  Without a delimiter `sp` returns advance 0 and
no token when not at end of input, and at end of input with non-empty data
the whole data with advance `len(data)`. -/
theorem sp_cuts_at_first_delimiter :
    (∀ (data : List Char) (n : Nat) (atEOF : Bool), FirstOccurrence delim data n →
      sp data atEOF = (n + 8, some (data.take (n + 8))) ∧
      data.take (n + 8) = data.take n ++ delim ∧
      ∀ m, OccursAt delim (data.take (n + 8)) m → m = n) ∧
    (∀ data : List Char, (∀ n, ¬ OccursAt delim data n) → sp data false = (0, none)) ∧
    (∀ data : List Char, (∀ n, ¬ OccursAt delim data n) → data ≠ [] →
      sp data true = (data.length, some data)) := by
  refine ⟨?_, ?_, ?_⟩
  · intro data n atEOF h
    have htake := take_of_occursAt delim data n h.1
    have hlen : delim.length = 8 := rfl
    rw [hlen] at htake
    refine ⟨sp_of_index_some data atEOF n (Index_of_first delim data n h), htake.1, ?_⟩
    intro m hm
    obtain ⟨a', b', hs, ha'⟩ := hm
    have hl : (data.take (n + 8)).length = n + 8 := by
      rw [List.length_take]; omega
    have hl2 : (data.take (n + 8)).length = m + 8 + b'.length := by
      rw [hs]; simp [hlen, ha']; omega
    have hocc : OccursAt delim data m := by
      refine ⟨a', b' ++ data.drop (n + 8), ?_, ha'⟩
      conv_lhs => rw [← List.take_append_drop (n + 8) data, hs]
      simp
    have := h.2 m hocc
    omega
  · intro data h
    exact sp_of_index_none_false data (Index_of_none delim data h)
  · intro data h hne
    rw [sp_of_index_none_true data (Index_of_none delim data h)]
    have : data.length ≠ 0 := fun h0 => hne (List.length_eq_zero.1 h0)
    rw [if_neg this]

/-! ## The scanner -/

theorem index_bound (data : List Char) (n : Nat) (h : Index data delim = some n) :
    n + 8 ≤ data.length ∧ data.take (n + 8) = data.take n ++ delim := by
  have hs := Index_spec delim data
  rw [h] at hs
  have := take_of_occursAt delim data n hs.1
  have hlen : delim.length = 8 := rfl
  rw [hlen] at this
  exact ⟨this.2, this.1⟩

/-- One call of `Scan` in closed form. -/
theorem Scan_eq (maxTok : Nat) (rest : List Char) :
    Scan maxTok rest =
      match Index (rest.take maxTok) delim with
      | some n => some (rest.take (n + 8), rest.drop (n + 8))
      | none => if maxTok ≤ rest.length ∨ rest = [] then none else some (rest, []) := by
  unfold Scan
  cases hi : Index (rest.take maxTok) delim with
  | some n =>
    have hb := (index_bound _ n hi).1
    simp only [sp_of_index_some _ false n hi, if_pos hb]
    have hl : (rest.take maxTok).length ≤ maxTok := by
      rw [List.length_take]; omega
    rw [List.take_take, Nat.min_eq_left (by omega)]
  | none =>
    simp only [sp_of_index_none_false _ hi, sp_of_index_none_true _ hi]
    by_cases hfull : maxTok ≤ rest.length
    · have : maxTok ≤ (rest.take maxTok).length := by
        rw [List.length_take]; omega
      simp [this, hfull]
    · have hlt : rest.length < maxTok := by omega
      have htake : rest.take maxTok = rest := List.take_of_length_le (by omega)
      rw [htake]
      have h1 : ¬ maxTok ≤ rest.length := hfull
      rw [if_neg h1]
      by_cases hnil : rest = []
      · subst hnil
        simp
      · have hlen : rest.length ≠ 0 := fun h0 => hnil (List.length_eq_zero.1 h0)
        simp [hlen, hnil, hfull]

/-- A call of `Scan` that yields a token: the token is a non-empty front part of
the pending input, the rest stays pending, and the token ends with the
delimiter unless it is the last. -/
theorem Scan_some (maxTok : Nat) (rest token rest' : List Char)
    (h : Scan maxTok rest = some (token, rest')) :
    token ≠ [] ∧ rest = token ++ rest' ∧ ((∃ a, token = a ++ delim) ∨ rest' = []) ∧
      ((∃ a, token = a ++ delim) → 8 ≤ token.length) := by
  rw [Scan_eq] at h
  cases hi : Index (rest.take maxTok) delim with
  | some n =>
    rw [hi] at h
    simp only [Option.some.injEq, Prod.mk.injEq] at h
    obtain ⟨h1, h2⟩ := h
    have hb := index_bound _ n hi
    have hl : (rest.take maxTok).length ≤ maxTok := by
      rw [List.length_take]; omega
    have hl2 : (rest.take maxTok).length ≤ rest.length := by
      rw [List.length_take]; omega
    have htok : token = (rest.take maxTok).take n ++ delim := by
      rw [← h1, ← hb.2, List.take_take, Nat.min_eq_left (by omega)]
    have hlen : token.length = n + 8 := by
      rw [← h1, List.length_take]; omega
    refine ⟨?_, ?_, Or.inl ⟨_, htok⟩, fun _ => by omega⟩
    · intro h0
      rw [h0] at hlen
      simp at hlen
    · rw [← h1, ← h2, List.take_append_drop]
  | none =>
    rw [hi] at h
    by_cases hc : maxTok ≤ rest.length ∨ rest = []
    · simp [hc] at h
    · simp only [if_neg hc, Option.some.injEq, Prod.mk.injEq] at h
      obtain ⟨h1, h2⟩ := h
      subst h1 h2
      refine ⟨fun h0 => hc (Or.inr h0), by simp, Or.inr rfl, fun ⟨a, ha⟩ => ?_⟩
      rw [ha]; simp [delim]

theorem Scan_none_small (maxTok : Nat) (rest : List Char) (hsmall : rest.length < maxTok)
    (h : Scan maxTok rest = none) : rest = [] := by
  rw [Scan_eq] at h
  cases hi : Index (rest.take maxTok) delim with
  | some n => rw [hi] at h; simp at h
  | none =>
    rw [hi] at h
    by_contra hne
    have : ¬ (maxTok ≤ rest.length ∨ rest = []) := by
      rintro (h1 | h1)
      · omega
      · exact hne h1
    simp [this] at h

theorem Scan_nil (maxTok : Nat) : Scan maxTok [] = none := by
  rw [Scan_eq]
  cases hi : Index (([] : List Char).take maxTok) delim with
  | some n =>
    have := (index_bound _ n hi).1
    simp at this
  | none => simp

theorem scanTokens_nil (maxTok fuel : Nat) : scanTokens maxTok fuel [] = [] := by
  cases fuel with
  | zero => rfl
  | succ fuel => simp [scanTokens, Scan_nil]

theorem scanTokens_fuel (maxTok : Nat) (f1 f2 : Nat) (rest : List Char)
    (h1 : rest.length < f1) (h2 : rest.length < f2) :
    scanTokens maxTok f1 rest = scanTokens maxTok f2 rest := by
  induction f1 generalizing f2 rest with
  | zero => omega
  | succ f1 ih =>
    cases f2 with
    | zero => omega
    | succ f2 =>
      simp only [scanTokens]
      cases hs : Scan maxTok rest with
      | none => rfl
      | some p =>
        obtain ⟨token, rest'⟩ := p
        obtain ⟨hne, hrest, _, _⟩ := Scan_some maxTok rest token rest' hs
        have hlen : rest.length = token.length + rest'.length := by rw [hrest]; simp
        have hpos : 0 < token.length := List.length_pos.2 hne
        simp only
        rw [ih f2 rest' (by omega) (by omega)]

theorem scanRun_eq (maxTok : Nat) (fuel : Nat) (rest : List Char) (h : rest.length < fuel) :
    scanRun maxTok fuel rest = some (scanTokens maxTok fuel rest) := by
  induction fuel generalizing rest with
  | zero => omega
  | succ fuel ih =>
    simp only [scanRun, scanTokens]
    cases hs : Scan maxTok rest with
    | none => rfl
    | some p =>
      obtain ⟨token, rest'⟩ := p
      obtain ⟨hne, hrest, _, _⟩ := Scan_some maxTok rest token rest' hs
      have hlen : rest.length = token.length + rest'.length := by rw [hrest]; simp
      have hpos : 0 < token.length := List.length_pos.2 hne
      simp only
      rw [ih rest' (by omega)]
      rfl

theorem scanTokens_length (maxTok : Nat) (fuel : Nat) (rest : List Char) :
    (scanTokens maxTok fuel rest).length ≤ rest.length := by
  induction fuel generalizing rest with
  | zero => simp [scanTokens]
  | succ fuel ih =>
    simp only [scanTokens]
    cases hs : Scan maxTok rest with
    | none => simp
    | some p =>
      obtain ⟨token, rest'⟩ := p
      obtain ⟨hne, hrest, _, _⟩ := Scan_some maxTok rest token rest' hs
      have hlen : rest.length = token.length + rest'.length := by rw [hrest]; simp
      have hpos : 0 < token.length := List.length_pos.2 hne
      have := ih rest'
      simp only [List.length_cons]
      omega

/-- The tokens of a scan are non-empty, all but the last end with the
delimiter, and together they are a front part of the input. -/
theorem scanTokens_partition (maxTok : Nat) (fuel : Nat) (rest : List Char) :
    (∀ t ∈ scanTokens maxTok fuel rest, t ≠ []) ∧
    (∀ t ∈ (scanTokens maxTok fuel rest).dropLast, ∃ a, t = a ++ delim) ∧
    (∃ r, rest = (scanTokens maxTok fuel rest).flatten ++ r) := by
  induction fuel generalizing rest with
  | zero => exact ⟨by simp [scanTokens], by simp [scanTokens], rest, by simp [scanTokens]⟩
  | succ fuel ih =>
    simp only [scanTokens]
    cases hs : Scan maxTok rest with
    | none => exact ⟨by simp, by simp, rest, by simp⟩
    | some p =>
      obtain ⟨token, rest'⟩ := p
      obtain ⟨hne, hrest, hend, _⟩ := Scan_some maxTok rest token rest' hs
      obtain ⟨ih1, ih2, r, ih3⟩ := ih rest'
      simp only
      refine ⟨?_, ?_, r, ?_⟩
      · intro t ht
        rcases List.mem_cons.1 ht with rfl | ht
        · exact hne
        · exact ih1 t ht
      · intro t ht
        cases htoks : scanTokens maxTok fuel rest' with
        | nil => rw [htoks] at ht; simp at ht
        | cons t2 toks =>
          rw [htoks, List.dropLast_cons₂] at ht
          rcases List.mem_cons.1 ht with rfl | ht
          · rcases hend with hend | hend
            · exact hend
            · rw [hend, scanTokens_nil] at htoks
              exact absurd htoks (by simp)
          · exact ih2 t (by rw [htoks]; exact ht)
      · rw [List.flatten_cons, List.append_assoc, ← ih3]
        exact hrest

theorem scanTokens_flatten_small (maxTok : Nat) (fuel : Nat) (rest : List Char)
    (hsmall : rest.length < maxTok) (hfuel : rest.length < fuel) :
    (scanTokens maxTok fuel rest).flatten = rest := by
  induction fuel generalizing rest with
  | zero => omega
  | succ fuel ih =>
    simp only [scanTokens]
    cases hs : Scan maxTok rest with
    | none => simp [Scan_none_small maxTok rest hsmall hs]
    | some p =>
      obtain ⟨token, rest'⟩ := p
      obtain ⟨hne, hrest, _, _⟩ := Scan_some maxTok rest token rest' hs
      have hlen : rest.length = token.length + rest'.length := by rw [hrest]; simp
      have hpos : 0 < token.length := List.length_pos.2 hne
      simp only [List.flatten_cons]
      rw [ih rest' (by omega) (by omega)]
      exact hrest.symm

/-! ## Trimming -/

theorem head_dropWhile_false (f : Char → Bool) (l : List Char) :
    ∀ c ∈ (l.dropWhile f).head?, f c = false := by
  induction l with
  | nil => simp
  | cons x l ih =>
    cases hx : f x with
    | true => simpa [List.dropWhile_cons, hx] using ih
    | false => simp [List.dropWhile_cons, hx]

theorem last_rdropWhile_false (f : Char → Bool) (l : List Char) :
    ∀ c ∈ (l.rdropWhile f).getLast?, f c = false := by
  unfold List.rdropWhile
  rw [List.getLast?_reverse]
  exact head_dropWhile_false f l.reverse

theorem dropWhile_of_head_false (f : Char → Bool) (l : List Char)
    (h : ∀ c ∈ l.head?, f c = false) : l.dropWhile f = l := by
  cases l with
  | nil => rfl
  | cons x l =>
    have hx : f x = false := h x (by simp)
    simp [List.dropWhile_cons, hx]

theorem rdropWhile_of_last_false (f : Char → Bool) (l : List Char)
    (h : ∀ c ∈ l.getLast?, f c = false) : l.rdropWhile f = l := by
  unfold List.rdropWhile
  rw [dropWhile_of_head_false f l.reverse (by rw [List.head?_reverse]; exact h),
    List.reverse_reverse]

theorem head_of_initial (p l : List Char) (h : p <+: l) (hp : p ≠ []) : p.head? = l.head? := by
  obtain ⟨r, rfl⟩ := h
  cases p with
  | nil => exact absurd rfl hp
  | cons x p => rfl

theorem last_of_suffix (s l : List Char) (h : s <:+ l) (hs : s ≠ []) :
    s.getLast? = l.getLast? := by
  obtain ⟨r, rfl⟩ := h
  rw [List.getLast?_append_of_ne_nil r hs]

theorem mem_TrimFunc (f : Char → Bool) (s : List Char) (x : Char) (h : x ∈ TrimFunc f s) :
    x ∈ s :=
  (List.dropWhile_suffix f).subset (( List.rdropWhile_prefix f _).subset h)

theorem TrimFunc_of_all (f : Char → Bool) (s : List Char) (h : ∀ x ∈ s, f x = true) :
    TrimFunc f s = [] := by
  unfold TrimFunc
  rw [List.rdropWhile_eq_nil_iff]
  intro x hx
  exact h x ((List.dropWhile_suffix f).subset hx)

/-- The ends of `strings.TrimFunc`: neither the first nor the last character of
the result satisfies the predicate. -/
theorem TrimFunc_ends (f : Char → Bool) (s : List Char) :
    (∀ c ∈ (TrimFunc f s).head?, f c = false) ∧
    (∀ c ∈ (TrimFunc f s).getLast?, f c = false) := by
  constructor
  · intro c hc
    by_cases hne : TrimFunc f s = []
    · rw [hne] at hc; simp at hc
    · have hp : TrimFunc f s <+: s.dropWhile f := List.rdropWhile_prefix f _
      rw [head_of_initial _ _ hp hne] at hc
      exact head_dropWhile_false f s c hc
  · exact last_rdropWhile_false f _

/-- The ends of the string handed to `processEvent`: no NUL at either end, and
no space at an end where the token without its surrounding space has no NUL. -/
theorem trimToken_ends (token : List Char) :
    (trimToken token).head? ≠ some '\x00' ∧ (trimToken token).getLast? ≠ some '\x00' ∧
    ((TrimSpace token).head? ≠ some '\x00' → ∀ c ∈ (trimToken token).head?, isSpace c = false) ∧
    ((TrimSpace token).getLast? ≠ some '\x00' →
      ∀ c ∈ (trimToken token).getLast?, isSpace c = false) := by
  have hu := TrimFunc_ends isSpace token
  have ht := TrimFunc_ends (fun c => decide (c ∈ ['\x00'])) (TrimSpace token)
  refine ⟨?_, ?_, ?_, ?_⟩
  · intro h
    have := ht.1 '\x00' (by rw [Option.mem_def]; exact h)
    simp at this
  · intro h
    have := ht.2 '\x00' (by rw [Option.mem_def]; exact h)
    simp at this
  · intro h c hc
    have hdrop : (TrimSpace token).dropWhile (fun c => decide (c ∈ ['\x00'])) = TrimSpace token := by
      apply dropWhile_of_head_false
      intro x hx
      rw [Option.mem_def] at hx
      have : x ≠ '\x00' := fun hx0 => h (by rw [hx, hx0])
      simp [this]
    have heq : trimToken token = (TrimSpace token).rdropWhile (fun c => decide (c ∈ ['\x00'])) := by
      unfold trimToken Trim TrimFunc
      rw [hdrop]
    by_cases hne : trimToken token = []
    · rw [hne] at hc; simp at hc
    · rw [head_of_initial (trimToken token) (TrimSpace token)
        (by rw [heq]; exact List.rdropWhile_prefix _ _) hne] at hc
      exact hu.1 c hc
  · intro h c hc
    by_cases hv : (TrimSpace token).dropWhile (fun c => decide (c ∈ ['\x00'])) = []
    · have : trimToken token = [] := by
        unfold trimToken Trim TrimFunc
        rw [hv]; rfl
      rw [this] at hc; simp at hc
    · have hlast := last_of_suffix _ _ (List.dropWhile_suffix (fun c => decide (c ∈ ['\x00']))
        (l := TrimSpace token)) hv
      have heq : trimToken token
          = (TrimSpace token).dropWhile (fun c => decide (c ∈ ['\x00'])) := by
        unfold trimToken Trim TrimFunc
        apply rdropWhile_of_last_false
        intro x hx
        rw [hlast, Option.mem_def] at hx
        have : x ≠ '\x00' := fun hx0 => h (by rw [hx, hx0])
        simp [this]
      rw [heq, hlast] at hc
      exact hu.2 c hc

/-! ## The strings handed to `processEvent` -/

/-- The scan loop calls `processEvent` exactly on the strings of `handedOf`. -/
theorem scanLoop_eq_processAll (R : Reader) (tokens : List (List Char))
    (set : List usbplugevent) :
    scanLoop R tokens set = processAll R (handedOf tokens) set := by
  induction tokens generalizing set with
  | nil => rfl
  | cons token tokens ih =>
    by_cases h0 : (trimToken token).length = 0
    · have : handedOf (token :: tokens) = handedOf tokens := by
        unfold handedOf
        rw [List.map_cons, List.filter_cons_of_neg (by simp [h0])]
      rw [this, scanLoop]
      simp only [h0, if_true]
      exact ih set
    · have : handedOf (token :: tokens) = trimToken token :: handedOf tokens := by
        unfold handedOf
        rw [List.map_cons, List.filter_cons_of_pos (by simpa using h0)]
      rw [this, scanLoop, processAll]
      simp only [h0, if_false]
      cases processEvent R (trimToken token) with
      | none => rfl
      | some p =>
        obtain ⟨upe, err⟩ := p
        simp only [ih]

theorem handedOf_mem (tokens : List (List Char)) (t : List Char) (h : t ∈ handedOf tokens) :
    t ≠ [] ∧ ∃ token ∈ tokens, t = trimToken token := by
  simp only [handedOf, List.mem_filter, List.mem_map, decide_eq_true_eq] at h
  obtain ⟨⟨token, htok, rfl⟩, hlen⟩ := h
  exact ⟨fun h0 => hlen (by rw [h0]; rfl), token, htok, rfl⟩

theorem occursAt_of_take (sub s : List Char) (k n : Nat) (h : OccursAt sub (s.take k) n) :
    OccursAt sub s n := by
  obtain ⟨a, b, hs, ha⟩ := h
  refine ⟨a, b ++ s.drop k, ?_, ha⟩
  conv_lhs => rw [← List.take_append_drop k s, hs]
  simp

/-- The tokens of an input without delimiter: the whole input when it is
non-empty and shorter than the buffer, none otherwise. -/
theorem allTokens_without_delimiter (maxTok : Nat) (input : List Char)
    (h : ∀ n, ¬ OccursAt delim input n) :
    allTokens maxTok input = if maxTok ≤ input.length ∨ input = [] then [] else [input] := by
  have hi : Index (input.take maxTok) delim = none :=
    Index_of_none delim _ (fun n hn => h n (occursAt_of_take delim input maxTok n hn))
  have hs : Scan maxTok input =
      if maxTok ≤ input.length ∨ input = [] then none else some (input, []) := by
    rw [Scan_eq, hi]
  unfold allTokens
  simp only [scanTokens, hs]
  by_cases hc : maxTok ≤ input.length ∨ input = []
  · simp [hc]
  · simp only [if_neg hc]
    rw [scanTokens_nil]

/-! ## Claims on the splitter -/

/-- C13: for an input without any occurrence of the delimiter, the strings
handed to `processEvent` are none or the single string that is the whole input
after trimming; none when the input is empty, all whitespace or all NUL; and
the trimmed input itself when it is non-empty and the input is shorter than
the buffer. -/
theorem handed_without_delimiter (input : List Char) (h : ∀ n, ¬ OccursAt delim input n) :
    (handedStrings input = [] ∨ handedStrings input = [trimToken input]) ∧
    ((input = [] ∨ (∀ c ∈ input, isSpace c = true) ∨ (∀ c ∈ input, c = '\x00')) →
      handedStrings input = []) ∧
    (input.length < maxTokenSize → trimToken input ≠ [] →
      handedStrings input = [trimToken input]) := by
  have htok := allTokens_without_delimiter maxTokenSize input h
  have hone : handedOf [input] = if (trimToken input).length = 0 then [] else [trimToken input] := by
    unfold handedOf
    by_cases h0 : (trimToken input).length = 0
    · rw [List.map_cons, List.filter_cons_of_neg (by simp [h0]), if_pos h0]; rfl
    · rw [List.map_cons, List.filter_cons_of_pos (by simpa using h0), if_neg h0]; rfl
  refine ⟨?_, ?_, ?_⟩
  · unfold handedStrings
    rw [htok]
    by_cases hc : maxTokenSize ≤ input.length ∨ input = []
    · rw [if_pos hc]; exact Or.inl rfl
    · rw [if_neg hc, hone]
      by_cases h0 : (trimToken input).length = 0
      · rw [if_pos h0]; exact Or.inl rfl
      · rw [if_neg h0]; exact Or.inr rfl
  · intro hempty
    have htrim : trimToken input = [] := by
      rcases hempty with h1 | h1 | h1
      · rw [h1]; rfl
      · unfold trimToken TrimSpace
        rw [TrimFunc_of_all isSpace input h1]; rfl
      · unfold trimToken Trim
        apply TrimFunc_of_all
        intro x hx
        have := h1 x (mem_TrimFunc isSpace input x hx)
        simp [this]
    unfold handedStrings
    rw [htok]
    by_cases hc : maxTokenSize ≤ input.length ∨ input = []
    · rw [if_pos hc]; rfl
    · rw [if_neg hc, hone, htrim]; rfl
  · intro hsmall hne
    have hc : ¬ (maxTokenSize ≤ input.length ∨ input = []) := by
      rintro (h1 | h1)
      · omega
      · exact hne (by rw [h1]; rfl)
    have h0 : ¬ (trimToken input).length = 0 := fun h0 => hne (List.length_eq_zero.1 h0)
    unfold handedStrings
    rw [htok, if_neg hc, hone, if_neg h0]

theorem handed_without_delimiter_witness :
    handedStrings "  <Event>6416\x00\x00".toList = ["<Event>6416".toList] := by
  have h := handed_without_delimiter "  <Event>6416\x00\x00".toList (by
    rintro n ⟨a, b, hs, _⟩
    have hslash : '/' ∈ "  <Event>6416\x00\x00".toList := by
      rw [hs]; simp [delim]
    exact absurd hslash (by decide))
  have h3 := h.2.2 (by decide) (by decide)
  rw [h3]
  decide

/-- C14 as amended: every string handed to `processEvent` is non-empty, is the
trimmed form of a token, and neither begins nor ends with a NUL; it does not
begin with a whitespace character unless the token without its surrounding
whitespace begins with a NUL, and does not end with one unless that token ends
with a NUL (whitespace is trimmed first, NUL padding second). -/
theorem handed_trimmed (input t : List Char) (h : t ∈ handedStrings input) :
    t ≠ [] ∧ t.head? ≠ some '\x00' ∧ t.getLast? ≠ some '\x00' ∧
    ∃ token ∈ allTokens maxTokenSize input, t = trimToken token ∧
      ((TrimSpace token).head? ≠ some '\x00' → ∀ c ∈ t.head?, isSpace c = false) ∧
      ((TrimSpace token).getLast? ≠ some '\x00' → ∀ c ∈ t.getLast?, isSpace c = false) := by
  obtain ⟨hne, token, htok, rfl⟩ := handedOf_mem _ t h
  obtain ⟨h1, h2, h3, h4⟩ := trimToken_ends token
  exact ⟨hne, h1, h2, token, htok, rfl, h3, h4⟩

theorem handed_trimmed_witness :
    "<Event>a</Event>".toList ≠ [] ∧ "<Event>a</Event>".toList.head? ≠ some '\x00' ∧
    "<Event>a</Event>".toList.getLast? ≠ some '\x00' ∧
    ∃ token ∈ allTokens maxTokenSize " \x00<Event>a</Event>\x00\n".toList,
      "<Event>a</Event>".toList = trimToken token ∧
      ((TrimSpace token).head? ≠ some '\x00' →
        ∀ c ∈ "<Event>a</Event>".toList.head?, isSpace c = false) ∧
      ((TrimSpace token).getLast? ≠ some '\x00' →
        ∀ c ∈ "<Event>a</Event>".toList.getLast?, isSpace c = false) :=
  handed_trimmed " \x00<Event>a</Event>\x00\n".toList "<Event>a</Event>".toList (by decide)

/-- C14 as stated fails: a token that starts with NUL and then a space is
handed to `processEvent` with the space in front. -/
theorem handed_keeps_space_inside_nul :
    handedStrings "\x00 <Event>a</Event>".toList = [" <Event>a</Event>".toList] ∧
    isSpace ' ' = true := by
  constructor <;> decide

/-- C18: the scan ends on every finite input: with one more call than the input
has characters (or any larger bound) the run of `Scan` calls ends and gives
the tokens, which are at most as many as the characters; a call that yields a
token consumes the token, at least one character and at least 8 when the token
ends with the delimiter; `sp` never hands out a token with advance 0; on the
empty input the first call ends the scan and nothing is handed to
`processEvent`. -/
theorem scan_terminates (maxTok : Nat) (input : List Char) :
    (∀ fuel, input.length < fuel → scanRun maxTok fuel input = some (allTokens maxTok input)) ∧
    (allTokens maxTok input).length ≤ input.length ∧
    (∀ rest token rest', Scan maxTok rest = some (token, rest') →
      1 ≤ token.length ∧ rest = token ++ rest' ∧ rest'.length < rest.length ∧
      ((∃ a, token = a ++ delim) → 8 ≤ token.length)) ∧
    (∀ data atEOF token, (sp data atEOF).2 = some token → 1 ≤ (sp data atEOF).1) ∧
    (Scan maxTok [] = none ∧ allTokens maxTok [] = [] ∧ handedStrings [] = []) := by
  refine ⟨?_, scanTokens_length maxTok _ input, ?_, ?_, Scan_nil maxTok, ?_, ?_⟩
  · intro fuel hfuel
    rw [scanRun_eq maxTok fuel input hfuel]
    congr 1
    exact scanTokens_fuel maxTok fuel (input.length + 1) input hfuel (by omega)
  · intro rest token rest' hs
    obtain ⟨hne, hrest, _, h8⟩ := Scan_some maxTok rest token rest' hs
    have hpos : 0 < token.length := List.length_pos.2 hne
    refine ⟨hpos, hrest, ?_, h8⟩
    have hlen : rest.length = token.length + rest'.length := by rw [hrest]; simp
    omega
  · intro data atEOF token htok
    cases hi : Index data delim with
    | some n => rw [sp_of_index_some data atEOF n hi]; simp
    | none =>
      cases atEOF with
      | false =>
        rw [sp_of_index_none_false data hi] at htok
        simp at htok
      | true =>
        rw [sp_of_index_none_true data hi]
        by_cases h0 : data.length = 0
        · simp [h0]
        · simp only [if_neg h0]; omega
  · exact scanTokens_nil maxTok _
  · unfold handedStrings
    rw [show allTokens maxTokenSize [] = [] from scanTokens_nil maxTokenSize _]
    rfl

/-- C20 as amended: the raw tokens of an input are all non-empty, all but the
last end with the delimiter, and their concatenation is a front part of the
input; it is the whole input when the input is shorter than the buffer. -/
theorem tokens_partition (maxTok : Nat) (input : List Char) :
    (∀ t ∈ allTokens maxTok input, t ≠ []) ∧
    (∀ t ∈ (allTokens maxTok input).dropLast, ∃ a, t = a ++ delim) ∧
    (∃ r, input = (allTokens maxTok input).flatten ++ r) ∧
    (input.length < maxTok → (allTokens maxTok input).flatten = input) := by
  obtain ⟨h1, h2, h3⟩ := scanTokens_partition maxTok (input.length + 1) input
  exact ⟨h1, h2, h3, fun hsmall =>
    scanTokens_flatten_small maxTok (input.length + 1) input hsmall (by omega)⟩

theorem allTokens_full_buffer (maxTok : Nat) :
    allTokens maxTok (List.replicate maxTok 'a') = [] := by
  have h : ∀ n, ¬ OccursAt delim (List.replicate maxTok 'a') n := by
    rintro n ⟨a, b, hs, _⟩
    have hmem : '<' ∈ List.replicate maxTok 'a' := by
      rw [hs]; simp [delim]
    have := List.eq_of_mem_replicate hmem
    exact absurd this (by decide)
  rw [allTokens_without_delimiter maxTok _ h, if_pos (Or.inl (by simp))]

/-- C20 as stated fails: an input of 32 MiB without a delimiter fills the buffer
of the scanner, the scan stops without a token, and the concatenation of the
tokens is empty, not the input. -/
theorem tokens_lost_on_full_buffer :
    List.replicate maxTokenSize 'a' ≠ [] ∧
    allTokens maxTokenSize (List.replicate maxTokenSize 'a') = [] ∧
    (allTokens maxTokenSize (List.replicate maxTokenSize 'a')).flatten
      ≠ List.replicate maxTokenSize 'a' := by
  have hne : List.replicate maxTokenSize 'a' ≠ [] := by
    intro h
    have h2 := congrArg List.length h
    rw [List.length_replicate, List.length_nil] at h2
    exact absurd h2 (by decide)
  refine ⟨hne, allTokens_full_buffer maxTokenSize, ?_⟩
  rw [allTokens_full_buffer maxTokenSize]
  exact fun h => hne h.symm

/-! ## Further claims on `processEvent` -/

/-- C11 as amended: for a parsed record with EventID 6416, a missing Provider
element is the hard error `noProvider`; and when the Provider has the required
name, a missing Computer element is the hard error `noComputer`; neither is
`ErrNotFound`. -/
theorem processEvent_missing_element (R : Reader) (t : List Char) (doc : Document) (e : Element)
    (hR : R t = Except.ok doc) (hid : doc.EventID = some e)
    (hdec : IsDecimal e.Text) (hval : decimalValue e.Text = 6416) :
    (doc.Provider = none →
      processEvent R t = some (usbplugevent.zero, some GoError.noProvider)) ∧
    (∀ pe a, doc.Provider = some pe → pe.SelectAttr keyName = some a →
      a.Value = providerName → doc.Computer = none →
      processEvent R t = some (usbplugevent.zero, some GoError.noComputer)) ∧
    GoError.noProvider ≠ GoError.ErrNotFound ∧ GoError.noComputer ≠ GoError.ErrNotFound := by
  have hparse := ParseUint_of_decimal e.Text hdec (by omega)
  rw [hval] at hparse
  refine ⟨?_, ?_, by simp, by simp⟩
  · intro hp
    simp [processEvent, hR, hid, hparse, hp]
  · intro pe a hp ha hav hc
    simp [processEvent, hR, hid, hparse, hp, ha, hav, hc]

theorem processEvent_missing_element_witness :
    processEvent (fun _ => Except.ok malformedDoc) [] =
      some (usbplugevent.zero, some GoError.noComputer) :=
  (processEvent_missing_element (fun _ => Except.ok malformedDoc) [] malformedDoc
    ⟨[], "6416".toList⟩ rfl rfl ⟨by decide, by decide⟩ (by decide)).2.1
    sampleProvider ⟨keyName, providerName⟩ rfl rfl rfl rfl

/-- C11 as stated fails: a record of another event without Provider and
Computer elements, and a record of event 6416 from another provider without
Computer element, both give `ErrNotFound`, not a hard error. -/
theorem processEvent_missing_element_not_found :
    processEvent (fun _ => Except.ok otherEventDoc) [] =
      some (usbplugevent.zero, some GoError.ErrNotFound) ∧
    processEvent (fun _ => Except.ok otherProviderDoc) [] =
      some (usbplugevent.zero, some GoError.ErrNotFound) := by
  constructor <;> decide

/-- C19, the code at a record of event 6416 whose Provider element has no `Name`
attribute: `SelectAttr` returns nil and reading its `Value` is a nil pointer
dereference, so `processEvent` does not return, and neither does
`extractPlugEvents`. -/
theorem processEvent_faults_without_provider_name :
    namelessProviderDoc.Provider.map (fun pe => pe.SelectAttr keyName) = some none ∧
    processEvent namelessProviderReader namelessProviderRecord = none ∧
    extractPlugEvents namelessProviderReader (Except.ok namelessProviderRecord) = none := by
  refine ⟨by decide, by decide, by decide⟩

/-! ## Further claims on `getUSBSerialNumber` -/

theorem slice_middle (a m b : List Char) :
    slice (a ++ (m ++ b)) a.length (a.length + m.length) = m := by
  unfold slice
  rw [List.drop_left]
  have : a.length + m.length - a.length = m.length := by omega
  rw [this, List.take_left]

/-- C17 as amended: when `getUSBSerialNumber` succeeds on `t`, the serial is the
part of `t` after the backslash that closes a `USB\VID_`..`&PID_`.. prefix, up
to the end of that line: it has at least two characters, the first outside
`\s`, none a newline (backslashes may occur in it), and what follows it in `t`
is nothing or starts with a newline. -/
theorem getUSBSerialNumber_serial_shape (t serial : List Char)
    (h : getUSBSerialNumber t = (serial, true)) :
    ∃ pre H D tail,
      t = pre ++ (usbVid ++ (H ++ (andPid ++ (D ++ '\\' :: (serial ++ tail))))) ∧
      H ≠ [] ∧ (∀ x ∈ H, isHexUpper x = true) ∧ D ≠ [] ∧ (∀ x ∈ D, isDigit x = true) ∧
      2 ≤ serial.length ∧ (∀ c ∈ serial.head?, isPerlSpace c = false) ∧ '\n' ∉ serial ∧
      (tail = [] ∨ tail.head? = some '\n') := by
  unfold getUSBSerialNumber FindStringSubmatchIndex at h
  cases hf : findFrom re 0 t with
  | none => rw [hf] at h; simp at h
  | some loc =>
    rw [hf] at h
    obtain ⟨pre, s', hs, hm⟩ := findFrom_sound re 0 t loc hf
    obtain ⟨H, D, c, d, rest, hs', hH, hHx, hD, hDx, hc, hd, hloc⟩ := matchAt_re_sound _ _ _ hm
    have hA : t = (pre ++ usbVid ++ H ++ andPid ++ D ++ ['\\']) ++
        ((c :: d :: rest.takeWhile notNewline) ++ rest.dropWhile notNewline) := by
      rw [hs, hs']; simp
    have hlenA : (pre ++ usbVid ++ H ++ andPid ++ D ++ ['\\']).length
        = pre.length + 8 + H.length + 5 + D.length + 1 := by
      simp [usbVid, andPid]; omega
    have hser : serial = c :: d :: rest.takeWhile notNewline := by
      rw [hloc] at h
      simp only [List.length_cons, List.length_nil, List.getD_cons_succ, List.getD_cons_zero]
        at h
      have hserial : slice t (pre.length + 8 + H.length + 5 + D.length + 1)
          (pre.length + 8 + H.length + 5 + D.length + 3 +
            (List.takeWhile notNewline rest).length) = serial := by simpa using h
      rw [← hserial]
      have e1 : pre.length + 8 + H.length + 5 + D.length + 3 +
          (List.takeWhile notNewline rest).length
          = (pre ++ usbVid ++ H ++ andPid ++ D ++ ['\\']).length +
            (c :: d :: rest.takeWhile notNewline).length := by
        rw [hlenA]; simp; omega
      rw [e1, ← hlenA]
      conv_lhs => rw [hA]
      exact slice_middle _ _ _
    refine ⟨pre, H, D, rest.dropWhile notNewline, ?_, hH, hHx, hD, hDx, ?_, ?_, ?_, ?_⟩
    · rw [hser, hs, hs']; simp
    · rw [hser]; simp
    · intro x hx
      rw [hser] at hx
      simp only [List.head?_cons, Option.mem_def, Option.some.injEq] at hx
      rw [← hx]; exact hc
    · rw [hser]
      intro hmem
      rcases List.mem_cons.1 hmem with h1 | hmem
      · rw [← h1] at hc; exact absurd hc (by decide)
      · rcases List.mem_cons.1 hmem with h1 | hmem
        · exact hd h1.symm
        · have := List.mem_takeWhile_imp hmem
          exact absurd this (by decide)
    · cases hdw : rest.dropWhile notNewline with
      | nil => exact Or.inl rfl
      | cons x xs =>
        right
        have := head_dropWhile_false notNewline rest x (by rw [hdw]; simp)
        have hx : x = '\n' := by simpa [notNewline] using this
        rw [hx]; rfl

theorem getUSBSerialNumber_serial_shape_witness :
    ∃ pre H D tail,
      "ID=USB\\VID_0781&PID_5581\\4C53\\01\nDESC".toList =
        pre ++ (usbVid ++ (H ++ (andPid ++ (D ++ '\\' :: ("4C53\\01".toList ++ tail))))) ∧
      H ≠ [] ∧ (∀ x ∈ H, isHexUpper x = true) ∧ D ≠ [] ∧ (∀ x ∈ D, isDigit x = true) ∧
      2 ≤ "4C53\\01".toList.length ∧ (∀ c ∈ "4C53\\01".toList.head?, isPerlSpace c = false) ∧
      '\n' ∉ "4C53\\01".toList ∧ (tail = [] ∨ tail.head? = some '\n') :=
  getUSBSerialNumber_serial_shape "ID=USB\\VID_0781&PID_5581\\4C53\\01\nDESC".toList
    "4C53\\01".toList (by decide)

/-- C17 as stated fails: the serial may contain a backslash, and then it is not
what follows the final backslash of the text; and it ends at a newline, before
the end of the text. -/
theorem getUSBSerialNumber_serial_with_backslash :
    getUSBSerialNumber "USB\\VID_1234&PID_5678\\AB\\CD".toList = ("AB\\CD".toList, true) ∧
    '\\' ∈ "AB\\CD".toList ∧
    getUSBSerialNumber "USB\\VID_1234&PID_5678\\AB\nCD".toList = ("AB".toList, true) ∧
    ¬ ("AB".toList <:+ "USB\\VID_1234&PID_5678\\AB\nCD".toList) := by
  refine ⟨by decide, by decide, by decide, ?_⟩
  rw [← List.isSuffixOf_iff_suffix]
  decide

/-! ## Further claims on the graph -/

theorem graphText_eq (ords : Nat → MapRange) (sets : List plugSets) :
    graphText ords sets =
      "digraph USBPlugs\x7b\n".toList ++ ((graphNodes ords sets).map nodeLine).flatten ++
        ("\n".toList ++ (sets.flatten.map edgeLine).flatten ++ "\x7d".toList) := by
  unfold graphText
  simp only []
  rw [foldl_foldl_append_lines, foldl_append_lines]
  simp only [List.append_assoc]

theorem nodeGroups_perm (ords1 ords2 : Nat → MapRange) (hv1 : ∀ i, (ords1 i).Valid)
    (hv2 : ∀ i, (ords2 i).Valid) (sets : List plugSets) (i : Nat) :
    (nodeGroups ords1 i sets).flatten.Perm (nodeGroups ords2 i sets).flatten := by
  induction sets generalizing i with
  | nil => exact List.Perm.refl _
  | cons set sets ih =>
    simp only [nodeGroups, List.flatten_cons]
    exact List.Perm.append
      ((uniqueUSBs_perm (ords1 i) (hv1 i) set).trans (uniqueUSBs_perm (ords2 i) (hv2 i) set).symm)
      (ih (i + 1))

theorem eq_of_perm_short (l k : List (List Char)) (h : l.Perm k) (hk : k.length ≤ 1) : l = k := by
  match k, hk with
  | [], _ => exact List.perm_nil.1 h
  | [x], _ => exact List.perm_singleton.1 h

theorem nodeGroups_eq_of_single (ords1 ords2 : Nat → MapRange) (hv1 : ∀ i, (ords1 i).Valid)
    (hv2 : ∀ i, (ords2 i).Valid) (sets : List plugSets) (i : Nat)
    (hone : ∀ set ∈ sets, (firstOccurrences (serialsOf set)).length ≤ 1) :
    nodeGroups ords1 i sets = nodeGroups ords2 i sets := by
  induction sets generalizing i with
  | nil => rfl
  | cons set sets ih =>
    simp only [nodeGroups]
    have hk : (keysOf set).length ≤ 1 := by
      rw [keysOf_eq]; exact hone set (by simp)
    rw [eq_of_perm_short _ _ (uniqueUSBs_perm (ords1 i) (hv1 i) set) hk,
      eq_of_perm_short _ _ (uniqueUSBs_perm (ords2 i) (hv2 i) set) hk,
      ih (i + 1) (fun s hs => hone s (by simp [hs]))]

/-- C15: every serial on the left of an edge line written by `createGraph` is
among the serials declared as nodes, so its node line is in the same text. -/
theorem edge_serials_declared (ords : Nat → MapRange) (hv : ∀ i, (ords i).Valid)
    (sets : List plugSets) (e : usbplugevent) (he : e ∈ sets.flatten) :
    e.serial ∈ graphNodes ords sets ∧
    nodeLine e.serial ∈ (graphNodes ords sets).map nodeLine ∧
    createGraph ords sets none = Except.ok
      ("digraph USBPlugs\x7b\n".toList ++ ((graphNodes ords sets).map nodeLine).flatten ++
        ("\n".toList ++ (sets.flatten.map edgeLine).flatten ++ "\x7d".toList)) := by
  have hmem : e.serial ∈ graphNodes ords sets := by
    rw [graphNodes_eq, nodeGroups_mem ords hv]
    obtain ⟨set, hset, hes⟩ := List.mem_flatten.1 he
    exact ⟨set, hset, List.mem_map_of_mem _ hes⟩
  refine ⟨hmem, List.mem_map_of_mem _ hmem, ?_⟩
  unfold createGraph
  rw [graphText_eq]

theorem edge_serials_declared_witness :
    "S2".toList ∈ graphNodes (fun _ => List.reverse) sampleSets :=
  (edge_serials_declared (fun _ => List.reverse) (fun _ keys => List.reverse_perm keys)
    sampleSets ⟨"H3".toList, "S2".toList⟩ (by decide)).1

/-- C16 as amended: two runs of `createGraph` on the same sets, each with its
own map iteration orders, write texts that differ at most in the node lines:
the same text before and after them, and node declarations that are
rearrangements of each other; the texts are identical when every set has at
most one distinct serial. -/
theorem graphText_up_to_map_order (ords1 ords2 : Nat → MapRange)
    (hv1 : ∀ i, (ords1 i).Valid) (hv2 : ∀ i, (ords2 i).Valid) (sets : List plugSets) :
    (∃ front back,
      graphText ords1 sets = front ++ ((graphNodes ords1 sets).map nodeLine).flatten ++ back ∧
      graphText ords2 sets = front ++ ((graphNodes ords2 sets).map nodeLine).flatten ++ back) ∧
    (graphNodes ords1 sets).Perm (graphNodes ords2 sets) ∧
    ((∀ set ∈ sets, (firstOccurrences (serialsOf set)).length ≤ 1) →
      graphText ords1 sets = graphText ords2 sets) := by
  refine ⟨⟨_, _, graphText_eq ords1 sets, graphText_eq ords2 sets⟩, ?_, ?_⟩
  · rw [graphNodes_eq, graphNodes_eq]
    exact nodeGroups_perm ords1 ords2 hv1 hv2 sets 0
  · intro hone
    rw [graphText_eq, graphText_eq, graphNodes_eq, graphNodes_eq,
      nodeGroups_eq_of_single ords1 ords2 hv1 hv2 sets 0 hone]

theorem graphText_up_to_map_order_witness :
    graphText (fun _ => id) sampleSets = graphText (fun _ => List.reverse) sampleSets :=
  (graphText_up_to_map_order (fun _ => id) (fun _ => List.reverse)
    (fun _ _ => List.Perm.refl _) (fun _ keys => List.reverse_perm keys) sampleSets).2.2
    (by decide)

/-- C16 as stated fails: two runs on the same set with two serials, one that
iterates the map in insertion order and one in the reverse order, write
different texts. -/
theorem graphText_depends_on_map_order :
    MapRange.Valid id ∧ MapRange.Valid List.reverse ∧
    graphNodes (fun _ => id) twoSerialSets = ["S1".toList, "S2".toList] ∧
    graphNodes (fun _ => List.reverse) twoSerialSets = ["S2".toList, "S1".toList] ∧
    graphText (fun _ => id) twoSerialSets ≠ graphText (fun _ => List.reverse) twoSerialSets := by
  refine ⟨fun _ => List.Perm.refl _, fun keys => List.reverse_perm keys, by decide, by decide,
    by decide⟩

end WinlogUSB
